import Mathlib

/-!
Verification of the DBN-Data-Generator core: a shallow embedding of the
dynamic-Bayesian-network data model (`dbn.py`, `node.py`), the
linear-Gaussian conditional distribution
(`evaluator/cpds/linear_gaussian.py`) and the sequential sampler
(`samplers/sequential.py`), together with theorems settling the frozen
claims about them.

Modelling conventions:
* Python floats are embedded as rationals (`ℚ`); all claims are exact
  arithmetic identities, never floating-point-specific.
* Python dicts are embedded as insertion-ordered association lists with
  update-in-place semantics (`dictSet` / `dictGet`).
* The one stochastic step, `np.random.default_rng().normal(loc, scale)`,
  is embedded as `loc + scale * z` where `z` is the standard-normal draw,
  supplied externally as a noise oracle (one draw per node per timestep).
* Fallible code returns `Except`: each Python `raise`/`KeyError` path is
  an explicit error constructor.
* The external datetime-axis collaborator (`generate_datetime_series`,
  which wraps `pandas.date_range`) is passed to `generate` as an opaque
  function argument, as the spec treats it as an opaque service.
-/

namespace DBNSim

/-- Python dict assignment `d[k] = v`: updates the value in place if the
key is present (keeping its original insertion position), otherwise
appends the new key at the end. -/
def dictSet {κ α : Type} [DecidableEq κ] : List (κ × α) → κ → α → List (κ × α)
  | [], k, v => [(k, v)]
  | (k0, v0) :: rest, k, v =>
    if k0 = k then (k, v) :: rest else (k0, v0) :: dictSet rest k v

/-- Python dict lookup `d.get(k)`: first (and, for dicts, only) binding of
the key. -/
def dictGet {κ α : Type} [DecidableEq κ] : List (κ × α) → κ → Option α
  | [], _ => none
  | (k0, v0) :: rest, k => if k0 = k then some v0 else dictGet rest k

/-- A linear-Gaussian conditional distribution
(`LinearGaussianCPD.__init__` stores the three fields verbatim; the
weight dict is embedded as a partial function from `(parent_name, lag)`
keys to weights, `none` meaning the key is absent from the dict). -/
structure LinearGaussianCPD where
  parent_weights : String × ℕ → Option ℚ
  intrinsic_mean : ℚ
  noise_std : ℚ

/-- `LinearGaussianCPD.__init__`: no validation whatsoever is performed
on the arguments; the constructor just stores them.  It is embedded with
an `Except` result type so that the claim "construction fails on a
negative standard deviation" is directly expressible; the source body
has no `raise`, so the result is always `.ok`. -/
def LinearGaussianCPD.init (parent_weights : String × ℕ → Option ℚ)
    (intrinsic_mean noise_std : ℚ) : Except String LinearGaussianCPD :=
  .ok ⟨parent_weights, intrinsic_mean, noise_std⟩

/-- `LinearGaussianCPD.evaluate`: `linear_sum = intrinsic_mean +
Σ parent_weights.get(key, 0.0) * val` over the items of the
`parent_values` dict, then one draw `normal(loc=linear_sum,
scale=noise_std)`, embedded as `linear_sum + noise_std * z` with `z` the
externally supplied standard-normal draw. -/
def LinearGaussianCPD.evaluate (cpd : LinearGaussianCPD)
    (parent_values : List ((String × ℕ) × ℚ)) (z : ℚ) : ℚ :=
  cpd.intrinsic_mean
    + (parent_values.map (fun kv => ((cpd.parent_weights kv.1).getD 0) * kv.2)).sum
    + cpd.noise_std * z

/-- The two node kinds of `node.py`: a regular `Node` (name, ordered
`(parent_name, lag)` list, one conditional distribution — the shipped
concrete variant is `LinearGaussianCPD`) and a `TemporalNode` (name, one
time feature, no parents).  Time-axis values are embedded as `ℚ` and a
time feature as a function `ℚ → ℚ`. -/
inductive DNode where
  | node (name : String) (parents : List (String × ℕ)) (cpd : LinearGaussianCPD)
  | temporal (name : String) (tf : ℚ → ℚ)

/-- The `name` attribute common to both node kinds. -/
def DNode.name : DNode → String
  | .node nm _ _ => nm
  | .temporal nm _ => nm

/-- The `parents` attribute: a `TemporalNode` carries an always-empty
parent list so generic code can iterate uniformly. -/
def DNode.parents : DNode → List (String × ℕ)
  | .node _ ps _ => ps
  | .temporal _ _ => []

/-- `isinstance(node, TemporalNode)` as used by the sampler. -/
def DNode.isTemporal : DNode → Bool
  | .node _ _ _ => false
  | .temporal _ _ => true

/-- The `DBN` container of `dbn.py`: an insertion-ordered dict of nodes
keyed by name, plus the tracked `max_lag`. -/
structure DBN where
  nodes : List (String × DNode)
  max_lag : ℕ

/-- `DBN.__init__`: empty node dict, `max_lag = 0`. -/
def DBN.empty : DBN := ⟨[], 0⟩

/-- `DBN.add_node`: `self.nodes[node.name] = node` (silent overwrite on
an existing name), then `for _, lag in node.parents: if lag > max_lag:
max_lag = lag`. -/
def DBN.add_node (dbn : DBN) (nd : DNode) : DBN :=
  ⟨dictSet dbn.nodes nd.name nd,
   nd.parents.foldl (fun m pl => if pl.2 > m then pl.2 else m) dbn.max_lag⟩

/-- `DBN.get_node`: `self.nodes.get(name, None)`. -/
def DBN.get_node (dbn : DBN) (name : String) : Option DNode :=
  dictGet dbn.nodes name

/-- `DBN.validate_structure`: the source body is literally `pass` — no
check is performed and nothing is ever raised, so the embedding
unconditionally returns `.ok ()`. -/
def DBN.validate_structure (_dbn : DBN) : Except String Unit := .ok ()

/-- The zero-lag edge list of the graph built inside
`get_topological_order`: one directed edge `parent_name → node.name` for
every `(parent_name, 0)` pair, iterating nodes in dict order and parents
in list order (exactly the `G.add_edge` loop; edges with `lag >= 1` are
excluded). -/
def zeroLagEdges (dbn : DBN) : List (String × String) :=
  (dbn.nodes.map Prod.snd).foldl
    (fun es nd =>
      es ++ nd.parents.filterMap
        (fun pl => if pl.2 = 0 then some (pl.1, nd.name) else none))
    []

/-- `networkx` vertex accumulation: `G.add_node` for every dict key,
then `G.add_edge` implicitly adds any endpoint not yet present (this is
how a dangling zero-lag parent name becomes a vertex). -/
def addVert (vs : List String) (v : String) : List String :=
  if v ∈ vs then vs else vs ++ [v]

/-- The vertex list of the zero-lag graph: all node names in insertion
order, then any edge endpoints not yet present, in edge order. -/
def graphVerts (dbn : DBN) : List String :=
  (zeroLagEdges dbn).foldl (fun vs e => addVert (addVert vs e.1) e.2)
    (dbn.nodes.map Prod.fst)

/-- One Kahn step: the first remaining vertex with no incoming zero-lag
edge from a remaining vertex (`nx.topological_sort` is Kahn's algorithm;
the claims leave the tie-breaking order unspecified, so the embedding
fixes the deterministic first-in-list choice). -/
def pickZero (E : List (String × String)) (rem : List String) : Option String :=
  rem.find? (fun v => !(E.any (fun e => e.2 == v && rem.contains e.1)))

/-- Kahn's algorithm with explicit fuel (`fuel = rem.length` at entry is
always sufficient); `none` is the `NetworkXUnfeasible` outcome, raised
exactly when a cycle remains. -/
def kahnAux (E : List (String × String)) : ℕ → List String → Option (List String)
  | _, [] => some []
  | 0, _ :: _ => none
  | fuel + 1, v0 :: rem' =>
    match pickZero E (v0 :: rem') with
    | none => none
    | some v => (kahnAux E fuel ((v0 :: rem').erase v)).map (fun l => v :: l)

/-- Error outcomes of the sampler and of `get_topological_order`:
each constructor is one `raise` site (or uncaught `KeyError` /
pandas `TypeError`) of the source. -/
inductive GenErr where
  | startWithoutFrequency
  | frequencyWithoutStart
  | cycleDetected
  | keyErr (name : String)
  | missingInitialValues (missing : List String)
  | initialValuesLength (expected : ℕ) (name : String) (actual : ℕ)
  | locSliceTypeError
deriving DecidableEq

/-- The final comprehension `[self.nodes[name] for name in
ordered_names]`: an uncaught `KeyError` when a sorted vertex is not a
dict key (dangling parent names reach this point). -/
def lookupNodes (nodes : List (String × DNode)) : List String → Except GenErr (List DNode)
  | [] => .ok []
  | nm :: rest =>
    match dictGet nodes nm with
    | none => .error (.keyErr nm)
    | some nd => (lookupNodes nodes rest).map (fun l => nd :: l)

/-- `DBN.get_topological_order`: topologically sort the zero-lag graph
(`ValueError` on a cycle, re-raised from `NetworkXUnfeasible`), then map
the sorted names back through the node dict. -/
def DBN.get_topological_order (dbn : DBN) : Except GenErr (List DNode) :=
  match kahnAux (zeroLagEdges dbn) (graphVerts dbn).length (graphVerts dbn) with
  | none => .error .cycleDetected
  | some order => lookupNodes dbn.nodes order

/-- Paths of exactly `n` edges in an edge list: `ReachN E n u w` holds
when `w` is reachable from `u` in `n` steps along edges of `E`. -/
def ReachN (E : List (String × String)) : ℕ → String → String → Prop
  | 0, u, w => u = w
  | n + 1, u, w => ∃ p, p ∈ E ∧ p.1 = u ∧ ReachN E n p.2 w

instance decReachN (E : List (String × String)) :
    (n : ℕ) → (u w : String) → Decidable (ReachN E n u w)
  | 0, u, w => if h : u = w then .isTrue h else .isFalse h
  | n + 1, u, w =>
    haveI : ∀ x : String × String, Decidable (x.1 = u ∧ ReachN E n x.2 w) :=
      fun x => @instDecidableAnd _ _ _ (decReachN E n x.2 w)
    decidable_of_iff (∃ x ∈ E, x.1 = u ∧ ReachN E n x.2 w) Iff.rfl

/-- The edge list contains a (directed) cycle: some vertex reaches
itself in at least one step. -/
def HasCycle (E : List (String × String)) : Prop :=
  ∃ v n, ReachN E (n + 1) v v

/-- Structural well-formedness of a `DBN` value, maintained by
construction through `add_node`: node names (the dict keys) are distinct
and every stored node's `name` attribute equals its dict key. -/
def DBN.WF (dbn : DBN) : Prop :=
  (dbn.nodes.map Prod.fst).Nodup ∧ ∀ p ∈ dbn.nodes, DNode.name p.2 = p.1

instance (dbn : DBN) : Decidable dbn.WF := by
  unfold DBN.WF
  exact instDecidableAnd

/-- Every `(parent_name, lag)` pair of every node references a name
present in the network (the §3 validity invariant). -/
def parentsResolve (dbn : DBN) : Prop :=
  ∀ p ∈ dbn.nodes, ∀ pl ∈ DNode.parents p.2, ∃ q ∈ dbn.nodes, q.1 = pl.1

instance (dbn : DBN) : Decidable (parentsResolve dbn) := by
  unfold parentsResolve
  exact List.decidableBAll _ _

/-- The timeseries dict being filled by the sampler: one column (a list
of values, one per timestep) per key; keys are the node names plus the
time column. -/
abbrev Table := List (String × List ℚ)

/-- Building `parentwise_values` for one node at timestep `t`: for each
`(parent_name, lag)` pair in list order, `lagged_timestep = t - lag`;
if `lagged_timestep >= 0` read `timeseries[parent_name][lagged_timestep]`
(an uncaught `KeyError` when the parent name is not a column; the index
is always in range because columns have length `n_steps`), otherwise use
the replacement value. Dict insertion `parentwise_values[(p, lag)] = v`
is the `dictSet` upsert, so a duplicated pair keeps its first position
and (identical) value. -/
def buildParentVals (T : Table) (repl : ℚ) (t : ℕ) :
    List (String × ℕ) → List ((String × ℕ) × ℚ) →
    Except GenErr (List ((String × ℕ) × ℚ))
  | [], acc => .ok acc
  | (p, lag) :: rest, acc =>
    if lag ≤ t then
      match dictGet T p with
      | none => .error (.keyErr p)
      | some col =>
        buildParentVals T repl t rest (dictSet acc (p, lag) (col.getD (t - lag) 0))
    else
      buildParentVals T repl t rest (dictSet acc (p, lag) repl)

/-- The inner loop of `generate` over one timestep: nodes in zero-lag
topological order; a temporal node evaluates its time feature on the
current time-axis value, any other node evaluates its conditional
distribution on `parentwise_values`; the result is written into the
node's column at index `t` (`timeseries[node.name][t] = v`; the write
is a `KeyError` if the name is not a column). -/
def stepNodes (noise : String → ℕ → ℚ) (repl : ℚ) (time : ℚ) (t : ℕ) :
    List DNode → Table → Except GenErr Table
  | [], T => .ok T
  | nd :: rest, T =>
    match nd with
    | .temporal nm tf =>
      match dictGet T nm with
      | none => .error (.keyErr nm)
      | some col =>
        stepNodes noise repl time t rest (dictSet T nm (col.set t (tf time)))
    | .node nm ps cpd =>
      match buildParentVals T repl t ps [] with
      | .error e => .error e
      | .ok pv =>
        match dictGet T nm with
        | none => .error (.keyErr nm)
        | some col =>
          stepNodes noise repl time t rest
            (dictSet T nm (col.set t (cpd.evaluate pv (noise nm t))))

/-- The outer loop of `generate`: `zip(timeseries[time_col][start:],
range(start, n_steps))` iterated in order, each pair running one
`stepNodes` pass over the topological order. -/
def mainLoop (noise : String → ℕ → ℚ) (repl : ℚ) (order : List DNode) :
    List (ℚ × ℕ) → Table → Except GenErr Table
  | [], T => .ok T
  | (time, t) :: rest, T =>
    match stepNodes noise repl time t order T with
    | .error e => .error e
    | .ok T1 => mainLoop noise repl order rest T1

/-- Automatic back-fill of temporal nodes into the caller's
`initial_values` dict: for every `TemporalNode` in dict order,
`initial_values[node.name] = [tf.evaluate(ts) for ts in
timeseries[time_col][:max_lag]]` (the time column at that point holds
exactly the time axis, so the prefix is passed in directly). -/
def backfillTemporal (nodes : List (String × DNode)) (axisPrefix : List ℚ)
    (iv : List (String × List ℚ)) : List (String × List ℚ) :=
  nodes.foldl
    (fun acc p =>
      match p.2 with
      | .temporal nm tf => dictSet acc nm (axisPrefix.map tf)
      | .node _ _ _ => acc)
    iv

/-- The per-node length check and warm-up seeding loop: for each node
name, the `initial_values` entry must have length exactly `max_lag`
(else `ValueError` naming expected and actual counts), and on success
the first `max_lag` rows of the node's column are replaced by the entry
(Python slice assignment `col[:max_lag] = entry`). The Python loop runs
over the set `all_nodes`; set iteration order is unspecified, so the
embedding fixes dict insertion order — the claims do not depend on
which offending node is named first. -/
def seedInitialValues (maxLag : ℕ) (iv : List (String × List ℚ)) :
    List String → Table → Except GenErr Table
  | [], T => .ok T
  | nm :: rest, T =>
    match dictGet iv nm with
    | none => .error (.keyErr nm)
    | some entry =>
      if entry.length ≠ maxLag then
        .error (.initialValuesLength maxLag nm entry.length)
      else
        match dictGet T nm with
        | none => .error (.keyErr nm)
        | some col => seedInitialValues maxLag iv rest (dictSet T nm (entry ++ col.drop maxLag))

/-- The `if initial_values:` block of `generate` (skipped entirely when
the dict is `None` or empty — Python truthiness): temporal back-fill
into the caller's dict, the key-set comparison (`ValueError` naming the
nodes missing from `initial_values`), then the per-node length check
and warm-up seeding. -/
def seedStage (dbn : DBN) (initial_values : Option (List (String × List ℚ)))
    (timeAxis : List ℚ) (ts1 : Table) : Except GenErr Table :=
  match initial_values with
  | none => .ok ts1
  | some iv0 =>
    if iv0 = [] then .ok ts1
    else
      let iv1 := backfillTemporal dbn.nodes (timeAxis.take dbn.max_lag) iv0
      let names := dbn.nodes.map Prod.fst
      let ivKeys := iv1.map Prod.fst
      if names.all (fun n => ivKeys.contains n) && ivKeys.all (fun k => names.contains k) then
        seedInitialValues dbn.max_lag iv1 names ts1
      else
        .error (.missingInitialValues (names.filter (fun n => !(ivKeys.contains n))))

/-- `Sampler.generate`, stage by stage in source order:
1. the timeseries dict, one zero-filled column of length `n_steps` per
   node;
2. the start/frequency consistency check (`ValueError` when exactly one
   is provided), then the time axis — the external datetime collaborator
   `genDT` when both are provided, `list(range(n_steps))` otherwise —
   stored under `time_column_name`;
3. `get_topological_order` (cycle / key errors surface here);
4. the `if initial_values:` block (skipped entirely when the dict is
   `None` or empty): temporal back-fill, the key-set comparison
   (`ValueError` naming the nodes missing from `initial_values`), the
   per-node length check and warm-up seeding;
5. `starting_timestep = 0 if initial_values is None else max_lag` (note:
   an empty dict is not `None`, so it also starts at `max_lag`);
6. the generation loop;
7. the output: the source line for
   `exclude_temporal_nodes_from_output=True` is
   `timeseries_dataset.loc[: [*nodes, time_col]]` — a slice whose stop
   bound is a list (the comma before the column list is missing), which
   pandas rejects with `TypeError: cannot do slice indexing on
   RangeIndex with these indexers ... of type list`; that uncaught
   exception is the `locSliceTypeError` outcome. -/
def generateCore (dbn : DBN)
    (noise : String → ℕ → ℚ)
    (n_steps : ℕ)
    (initial_values : Option (List (String × List ℚ)))
    (repl : ℚ)
    (time_column_name : String)
    (exclude_temporal_nodes_from_output : Bool)
    (timeAxis : List ℚ) : Except GenErr Table :=
  let ts0 : Table := dbn.nodes.map (fun p => (p.1, List.replicate n_steps (0 : ℚ)))
  let ts1 := dictSet ts0 time_column_name timeAxis
  match dbn.get_topological_order with
  | .error e => .error e
  | .ok order =>
    match seedStage dbn initial_values timeAxis ts1 with
    | .error e => .error e
    | .ok seeded =>
      let start := match initial_values with | none => 0 | some _ => dbn.max_lag
      let pairs := (timeAxis.drop start).zip (List.range' start (n_steps - start))
      match mainLoop noise repl order pairs seeded with
      | .error e => .error e
      | .ok final =>
        if exclude_temporal_nodes_from_output then .error .locSliceTypeError
        else .ok final

/-- Top level of `Sampler.generate`: the start/frequency consistency
check and the time-axis choice happen first (the zero-filled timeseries
dict built on the very first source line is pure, so it is folded into
`generateCore`); everything downstream of the axis is `generateCore`. -/
def Sampler.generate (dbn : DBN)
    (genDT : ℕ → String → String → Option String → List ℚ)
    (noise : String → ℕ → ℚ)
    (n_steps : ℕ)
    (initial_values : Option (List (String × List ℚ)))
    (repl : ℚ)
    (time_column_name : String)
    (start_time frequency start_time_format : Option String)
    (exclude_temporal_nodes_from_output : Bool) : Except GenErr Table :=
  match start_time, frequency with
  | some _, none => .error .startWithoutFrequency
  | none, some _ => .error .frequencyWithoutStart
  | some s, some f =>
    generateCore dbn noise n_steps initial_values repl time_column_name
      exclude_temporal_nodes_from_output (genDT n_steps s f start_time_format)
  | none, none =>
    generateCore dbn noise n_steps initial_values repl time_column_name
      exclude_temporal_nodes_from_output ((List.range n_steps).map (fun i => (i : ℚ)))

/-- Reading one cell of the timeseries: column of `nm`, index `i`
(0 when absent, which never happens on the paths the theorems take). -/
def cell (T : Table) (nm : String) (i : ℕ) : ℚ :=
  ((dictGet T nm).getD []).getD i 0

/-- The key `nm` is a column of the table (a Python `timeseries[nm]`
lookup succeeds). -/
def hasKey (T : Table) (nm : String) : Prop := (dictGet T nm).isSome = true

/-- The pure reading of `parentwise_values` against a fixed table: what
`buildParentVals` computes when every lookup succeeds, and — applied to
the final table — the mapping the claims describe (already-computed
parent value at `t - lag`, or the replacement when `t - lag < 0`). -/
def pureParentVals (T : Table) (repl : ℚ) (t : ℕ) :
    List (String × ℕ) → List ((String × ℕ) × ℚ) → List ((String × ℕ) × ℚ)
  | [], acc => acc
  | (p, lag) :: rest, acc =>
    pureParentVals T repl t rest
      (dictSet acc (p, lag) (if lag ≤ t then cell T p (t - lag) else repl))

/-- The value the sampler stores for a node at timestep `t` as the
claims describe it, read against a fixed table: a temporal node's time
feature on the current time-axis value, any other node's conditional
distribution on the lag-resolved parent mapping. -/
def specNodeValue (noise : String → ℕ → ℚ) (repl : ℚ) (time : ℚ) (t : ℕ)
    (T : Table) : DNode → ℚ
  | .temporal _ tf => tf time
  | .node nm ps cpd => cpd.evaluate (pureParentVals T repl t ps []) (noise nm t)

instance exceptDecEq {ε α : Type} [DecidableEq ε] [DecidableEq α] :
    DecidableEq (Except ε α)
  | .error a, .error b =>
    if h : a = b then .isTrue (by rw [h]) else
      .isFalse (fun c => h (by cases c; rfl))
  | .error _, .ok _ => .isFalse (fun c => Except.noConfusion c)
  | .ok _, .error _ => .isFalse (fun c => Except.noConfusion c)
  | .ok a, .ok b =>
    if h : a = b then .isTrue (by rw [h]) else
      .isFalse (fun c => h (by cases c; rfl))

/-- `starting_timestep = 0 if initial_values is None else self.dbn.max_lag`
(source line; note an empty dict is not `None`). -/
def startingTimestep (maxLag : ℕ) : Option (List (String × List ℚ)) → ℕ
  | none => 0
  | some _ => maxLag

/-- Fixture for the C3 witness: root node `Y`, intercept 3, no noise. -/
def c3cpdY : LinearGaussianCPD := ⟨fun _ => none, 3, 0⟩

/-- Fixture for the C3 witness: `X` reads `Y` at lag 2 with weight 1,
intercept 1, no noise. -/
def c3cpdX : LinearGaussianCPD := ⟨fun k => if k = ("Y", 2) then some 1 else none, 1, 0⟩

/-- Fixture for the C3 witness: the spec's missing-history scenario — a
node with a lag-2 parent generated from timestep 0 with no initial
values, so `max_lag = 2` but generation starts at 0. -/
def c3dbn : DBN :=
  (DBN.empty.add_node (.node "Y" [] c3cpdY)).add_node (.node "X" [("Y", 2)] c3cpdX)

/-- Fixture: integer-valued stand-in for the datetime collaborator,
honouring its length contract. -/
def c3axis : ℕ → String → String → Option String → List ℚ :=
  fun n _ _ _ => (List.range n).map (fun i => (i : ℚ))

/-- The table `generate` returns on the C3 witness scenario: `X` gets
`1 + 0` at timesteps 0 and 1 (replacement value for the out-of-history
parent lookups) and `1 + Y[t-2] = 4` afterwards. -/
def c3wTbl : Table := [("Y", [3, 3, 3, 3]), ("X", [1, 1, 4, 4]), ("Time", [0, 1, 2, 3])]

/-- Fixture for the C5 counterexample: `A` reads itself at lag 1 with
weight 1, intercept 1, no noise. -/
def c5cpdA : LinearGaussianCPD := ⟨fun k => if k = ("A", 1) then some 1 else none, 1, 0⟩

/-- Fixture for the C5 counterexample: node `A` (self-loop at lag 1)
plus the temporal node `T` (feature `time + 100`), so `max_lag = 1`. -/
def c5dbn : DBN :=
  (DBN.empty.add_node (.node "A" [("A", 1)] c5cpdA)).add_node
    (.temporal "T" (fun q => q + 100))

/-- Follows the spec's words (the claimed invariant, for comparison with
the code): "the maximum lag across all (parent, lag) pairs of all nodes
currently present in the network, and 0 when no node has parents". -/
def specMaxLagCurrent (dbn : DBN) : ℕ :=
  (dbn.nodes.map Prod.snd).foldl
    (fun m nd => nd.parents.foldl (fun m2 pl => max m2 pl.2) m) 0

/-- Fixture for C6: a parentless placeholder distribution. -/
def c6cpd : LinearGaussianCPD := ⟨fun _ => none, 0, 0⟩

/-- Fixture for C6: add node `B` with a lag-5 parent edge, then
overwrite `B` with a parentless node of the same name. -/
def c6dbn : DBN :=
  (DBN.empty.add_node (.node "B" [("A", 5)] c6cpd)).add_node (.node "B" [] c6cpd)

/-- Fixture for C7: node `B` references the undeclared parent `A` by a
zero-lag edge. -/
def c7dangling : DBN :=
  DBN.empty.add_node (.node "B" [("A", 0)] ⟨fun _ => none, 0, 0⟩)

/-- Fixture for C7: a two-node zero-lag cycle `P ↔ Q`. -/
def c7cyclic : DBN :=
  (DBN.empty.add_node (.node "P" [("Q", 0)] ⟨fun _ => none, 0, 0⟩)).add_node
    (.node "Q" [("P", 0)] ⟨fun _ => none, 0, 0⟩)

/-- The ordering invariant of a Kahn output as consumed by the sampler:
each vertex has no incoming edge from itself or any later vertex. -/
def NOrd (E : List (String × String)) : List String → Prop
  | [] => True
  | v :: rest => (∀ e ∈ E, e.2 = v → e.1 ∉ v :: rest) ∧ NOrd E rest

/-- Fixture for the C10 witness: root `A` (intercept 5) and `B`
depending on `A` at lag 1 (weight 4/5, intercept 1), so `max_lag = 1`. -/
def c10dbn : DBN :=
  (DBN.empty.add_node (.node "A" [] ⟨fun _ => none, 5, 0⟩)).add_node
    (.node "B" [("A", 1)] ⟨fun k => if k = ("A", 1) then some (4/5) else none, 1, 0⟩)

/-- Fixture: integer-valued stand-in for the datetime collaborator. -/
def c10axis : ℕ → String → String → Option String → List ℚ :=
  fun n _ _ _ => (List.range n).map (fun i => (i : ℚ))

/-- Fixture for C1's counterexample: node `B` with the dangling zero-lag
parent `A` (no node named `A` exists). -/
def c1dangling : DBN :=
  DBN.empty.add_node (.node "B" [("A", 0)] ⟨fun _ => none, 0, 0⟩)

/-- Fixture for C1's witness: `C` (inserted first) depends on `D` at
lag 0, so the only valid order is `D` before `C`. -/
def c1w : DBN :=
  (DBN.empty.add_node (.node "C" [("D", 0)] ⟨fun _ => none, 0, 0⟩)).add_node
    (.node "D" [] ⟨fun _ => none, 7, 0⟩)

/-- Fixture for C8: `A` reads the temporal node `T` at lag 0 with weight
1, so `A`'s generated values equal `T`'s (temporal nodes participate in
generation). -/
def c8cpdA : LinearGaussianCPD := ⟨fun k => if k = ("T", 0) then some 1 else none, 0, 0⟩

/-- Fixture for C8: temporal node `T` (feature `time + 100`) and node
`A` depending on `T` at lag 0. -/
def c8dbn : DBN :=
  (DBN.empty.add_node (.temporal "T" (fun q => q + 100))).add_node
    (.node "A" [("T", 0)] c8cpdA)

/-- Fixture: an integer-valued stand-in for the datetime-axis
collaborator, honouring its length contract. -/
def c8axis : ℕ → String → String → Option String → List ℚ :=
  fun n _ _ _ => (List.range n).map (fun i => (i : ℚ))

section

attribute [local semireducible] Rat.add Rat.mul Rat.sub Rat.inv Rat.ofScientific

/-! ### Claim C4: linear-Gaussian evaluation -/

/-- C4. For every `LinearGaussianCPD` with an empty parent-weights
mapping and noise standard deviation 0, `evaluate` returns exactly the
intrinsic mean for every input mapping (and every noise draw, the draw
being scaled by 0); and a key carrying weight exactly 0 is behaviorally
identical to an absent key: `evaluate` gives the same value whether the
weight mapping binds the key to 0 or omits it, on every input. -/
theorem C4_evaluate_intercept_and_zero_weight :
    (∀ (m z : ℚ) (pv : List ((String × ℕ) × ℚ)),
      LinearGaussianCPD.evaluate ⟨fun _ => none, m, 0⟩ pv z = m) ∧
    (∀ (w : String × ℕ → Option ℚ) (k : String × ℕ) (m s z : ℚ)
        (pv : List ((String × ℕ) × ℚ)),
      LinearGaussianCPD.evaluate ⟨fun j => if j = k then some 0 else w j, m, s⟩ pv z
        = LinearGaussianCPD.evaluate ⟨fun j => if j = k then none else w j, m, s⟩ pv z) := by
  constructor
  · intro m z pv
    have hz : (pv.map (fun kv =>
        (((fun _ : String × ℕ => (none : Option ℚ)) kv.1).getD 0) * kv.2)).sum = 0 := by
      apply List.sum_eq_zero
      intro x hx
      obtain ⟨kv, _, rfl⟩ := List.mem_map.1 hx
      simp
    simp [LinearGaussianCPD.evaluate, hz]
  · intro w k m s z pv
    have hmap : ∀ kv ∈ pv,
        (((fun j => if j = k then some (0 : ℚ) else w j) kv.1).getD 0) * kv.2
          = (((fun j => if j = k then (none : Option ℚ) else w j) kv.1).getD 0) * kv.2 := by
      intro kv _
      by_cases h : kv.1 = k <;> simp [h]
    simp only [LinearGaussianCPD.evaluate]
    rw [List.map_congr_left hmap]

/-! ### Claim C9: no validation at construction -/

/-- C9 counterexample. The claim says constructing a `LinearGaussianCPD`
with a negative noise standard deviation fails at construction time with
a configuration error; but `__init__` performs no validation at all, so
construction with `noise_std = -1` succeeds and stores `-1` verbatim. -/
theorem C9_counterexample_negative_std_accepted :
    LinearGaussianCPD.init (fun _ => none) 0 (-1)
      = .ok ⟨fun _ => none, 0, -1⟩ := rfl

/-- C9 amended. Construction of a `LinearGaussianCPD` never fails:
`__init__` stores the parent weights, intrinsic mean and noise standard
deviation verbatim with no validation, for every argument combination
including a negative standard deviation. -/
theorem C9_init_never_fails (w : String × ℕ → Option ℚ) (m s : ℚ) :
    LinearGaussianCPD.init w m s = .ok ⟨w, m, s⟩ := rfl

/-! ### Claim C6: max_lag under add_node -/

/-- C6 counterexample. After adding `B` with a lag-5 parent and then
silently overwriting `B` with a parentless node, the network contains
only the parentless `B`, so the maximum lag over the nodes currently
present is 0 — yet `max_lag` is still 5.  The claimed invariant
"`max_lag` equals the maximum lag across all nodes currently present"
is false. -/
theorem C6_counterexample_overwrite_keeps_stale_max_lag :
    c6dbn.max_lag = 5 ∧ specMaxLagCurrent c6dbn = 0 := by
  constructor <;> decide

/-- Helper for C6: the `add_node` update `if lag > m then lag else m`
folded over a parent list is the `max` fold. -/
theorem foldl_lag_update_eq_max (ps : List (String × ℕ)) :
    ∀ m : ℕ, ps.foldl (fun m2 pl => if pl.2 > m2 then pl.2 else m2) m
      = ps.foldl (fun m2 pl => max m2 pl.2) m := by
  induction ps with
  | nil => intro m; rfl
  | cons pl rest ih =>
    intro m
    have h : (if pl.2 > m then pl.2 else m) = max m pl.2 := by
      rcases Nat.lt_or_ge m pl.2 with hlt | hge
      · simp [hlt, Nat.max_eq_right (Nat.le_of_lt hlt)]
      · simp [Nat.not_lt.2 hge, Nat.max_eq_left hge]
    simp only [List.foldl_cons, h, ih]

/-- Helper for C6: `max_lag` after a sequence of `add_node` calls is the
fold of all added nodes' lags over the starting value. -/
theorem max_lag_foldl (nds : List DNode) :
    ∀ d : DBN, (nds.foldl DBN.add_node d).max_lag
      = nds.foldl (fun m nd => nd.parents.foldl (fun m2 pl => max m2 pl.2) m) d.max_lag := by
  induction nds with
  | nil => intro d; rfl
  | cons nd rest ih =>
    intro d
    simp only [List.foldl_cons, ih, DBN.add_node, foldl_lag_update_eq_max]

/-- C6 amended. After every sequence of `add_node` calls starting from
the empty network (including calls that reuse an existing node name,
which overwrite silently without raising), `max_lag` equals the maximum
lag across all `(parent, lag)` pairs of all nodes EVER ADDED during the
sequence — the update is monotone, so an overwrite does not remove the
overwritten node's contribution — and 0 when no added node has
parents. -/
theorem C6_max_lag_is_history_max (nds : List DNode) :
    (nds.foldl DBN.add_node DBN.empty).max_lag
      = nds.foldl (fun m nd => nd.parents.foldl (fun m2 pl => max m2 pl.2) m) 0 :=
  max_lag_foldl nds DBN.empty

/-! ### Claim C7: validate_structure is a no-op -/

/-- C7. The claim says `validate` checks that every referenced parent
resolves and that the zero-lag subgraph is acyclic, failing with a
structural-validation error otherwise; but the source body of
`validate_structure` is literally `pass`: on a network with a dangling
parent reference it returns without error, and on a network whose
zero-lag subgraph is cyclic it also returns without error. -/
theorem C7_validate_structure_checks_nothing :
    (¬ parentsResolve c7dangling ∧ c7dangling.validate_structure = .ok ()) ∧
    (HasCycle (zeroLagEdges c7cyclic) ∧ c7cyclic.validate_structure = .ok ()) :=
  ⟨⟨by decide, rfl⟩, ⟨⟨"P", 1, by decide⟩, rfl⟩⟩

/-! ### Dictionary lemmas -/

theorem dictGet_dictSet_self {κ α : Type} [DecidableEq κ] (d : List (κ × α)) (k : κ) (v : α) :
    dictGet (dictSet d k v) k = some v := by
  induction d with
  | nil => simp [dictSet, dictGet]
  | cons p rest ih =>
    by_cases h : p.1 = k
    · simp [dictSet, dictGet, h]
    · simp [dictSet, dictGet, h, ih]

theorem dictGet_dictSet_ne {κ α : Type} [DecidableEq κ] (d : List (κ × α)) (k k' : κ) (v : α)
    (h : k' ≠ k) : dictGet (dictSet d k v) k' = dictGet d k' := by
  induction d with
  | nil => simp [dictSet, dictGet, Ne.symm h]
  | cons p rest ih =>
    by_cases hp : p.1 = k
    · simp [dictSet, dictGet, hp, Ne.symm h, h]
    · by_cases hp' : p.1 = k'
      · simp [dictSet, dictGet, hp, hp', Ne.symm h, h]
      · simp [dictSet, dictGet, hp, hp', ih]

theorem mem_keys_dictSet_iff {κ α : Type} [DecidableEq κ] (d : List (κ × α)) (k k' : κ) (v : α) :
    k' ∈ (dictSet d k v).map Prod.fst ↔ k' = k ∨ k' ∈ d.map Prod.fst := by
  induction d with
  | nil => simp [dictSet]
  | cons p rest ih =>
    by_cases hp : p.1 = k
    · rw [show dictSet (p :: rest) k v = (k, v) :: rest from by simp [dictSet, hp]]
      simp only [List.map_cons, List.mem_cons, hp]
      tauto
    · simp only [dictSet, if_neg hp, List.map_cons, List.mem_cons, ih]
      tauto

theorem dictGet_mem {κ α : Type} [DecidableEq κ] {d : List (κ × α)} {k : κ} {v : α}
    (h : dictGet d k = some v) : (k, v) ∈ d := by
  induction d with
  | nil => exact Option.noConfusion h
  | cons p rest ih =>
    by_cases hp : p.1 = k
    · simp only [dictGet, if_pos hp, Option.some.injEq] at h
      have hpv : p = (k, v) := by
        obtain ⟨a, b⟩ := p
        simp only at hp h
        rw [hp, h]
      rw [← hpv]
      exact List.mem_cons_self _ _
    · simp only [dictGet, if_neg hp] at h
      exact List.mem_cons_of_mem _ (ih h)

theorem dictGet_of_mem_keys {κ α : Type} [DecidableEq κ] {d : List (κ × α)} {k : κ}
    (h : k ∈ d.map Prod.fst) : ∃ v, dictGet d k = some v := by
  induction d with
  | nil => exact absurd h (List.not_mem_nil _)
  | cons p rest ih =>
    by_cases hp : p.1 = k
    · exact ⟨p.2, by simp [dictGet, hp]⟩
    · simp only [List.map_cons, List.mem_cons] at h
      rcases h with h | h
      · exact absurd h.symm hp
      · obtain ⟨v, hv⟩ := ih h
        exact ⟨v, by simp [dictGet, hp, hv]⟩

theorem mem_keys_of_dictGet {κ α : Type} [DecidableEq κ] {d : List (κ × α)} {k : κ} {v : α}
    (h : dictGet d k = some v) : k ∈ d.map Prod.fst :=
  List.mem_map.2 ⟨(k, v), dictGet_mem h, rfl⟩

/-! ### Kahn machinery for `get_topological_order` (claim C1) -/

theorem pickZero_mem {E : List (String × String)} {rem : List String} {v : String}
    (h : pickZero E rem = some v) : v ∈ rem :=
  List.mem_of_find?_eq_some h

theorem pickZero_no_incoming {E : List (String × String)} {rem : List String} {v : String}
    (h : pickZero E rem = some v) : ∀ e ∈ E, e.2 = v → e.1 ∉ rem := by
  have hp := List.find?_some h
  intro e heE he2 he1
  simp only [Bool.not_eq_true', List.any_eq_false] at hp
  have := hp e heE
  simp [he2, he1] at this

theorem pickZero_none {E : List (String × String)} {rem : List String}
    (h : pickZero E rem = none) : ∀ v ∈ rem, ∃ e ∈ E, e.2 = v ∧ e.1 ∈ rem := by
  intro v hv
  have := List.find?_eq_none.1 h v hv
  simp only [Bool.not_eq_true', Bool.not_eq_false, List.any_eq_true] at this
  obtain ⟨e, heE, he⟩ := this
  simp only [Bool.and_eq_true, beq_iff_eq] at he
  exact ⟨e, heE, he.1, List.mem_of_elem_eq_true he.2⟩

theorem kahnAux_perm (E : List (String × String)) :
    ∀ (fuel : ℕ) (rem l : List String), kahnAux E fuel rem = some l → l.Perm rem := by
  intro fuel
  induction fuel with
  | zero =>
    intro rem l h
    cases rem with
    | nil =>
      simp only [kahnAux, Option.some.injEq] at h
      exact h ▸ List.Perm.refl _
    | cons a as => exact Option.noConfusion (by simpa only [kahnAux] using h)
  | succ n ih =>
    intro rem l h
    cases rem with
    | nil =>
      simp only [kahnAux, Option.some.injEq] at h
      exact h ▸ List.Perm.refl _
    | cons a as =>
      simp only [kahnAux] at h
      cases hp : pickZero E (a :: as) with
      | none => simp only [hp] at h; exact Option.noConfusion h
      | some v =>
        simp only [hp] at h
        cases hk : kahnAux E n ((a :: as).erase v) with
        | none => simp only [hk, Option.map_none'] at h; exact Option.noConfusion h
        | some l' =>
          simp only [hk, Option.map_some', Option.some.injEq] at h
          subst h
          exact ((ih _ _ hk).cons v).trans (List.perm_cons_erase (pickZero_mem hp)).symm

theorem kahnAux_sorted (E : List (String × String)) :
    ∀ (fuel : ℕ) (rem l : List String), kahnAux E fuel rem = some l →
      ∀ e ∈ E, e.1 ∈ rem → e.2 ∈ rem → l.indexOf e.1 < l.indexOf e.2 := by
  intro fuel
  induction fuel with
  | zero =>
    intro rem l h e heE h1 h2
    cases rem with
    | nil => exact absurd h1 (List.not_mem_nil _)
    | cons a as => exact Option.noConfusion (by simpa only [kahnAux] using h)
  | succ n ih =>
    intro rem l h e heE h1 h2
    cases rem with
    | nil => exact absurd h1 (List.not_mem_nil _)
    | cons a as =>
      simp only [kahnAux] at h
      cases hp : pickZero E (a :: as) with
      | none => simp only [hp] at h; exact Option.noConfusion h
      | some v =>
        simp only [hp] at h
        cases hk : kahnAux E n ((a :: as).erase v) with
        | none => simp only [hk, Option.map_none'] at h; exact Option.noConfusion h
        | some l' =>
          simp only [hk, Option.map_some', Option.some.injEq] at h
          subst h
          have hv2 : e.2 ≠ v := fun hc => pickZero_no_incoming hp e heE hc h1
          have h2' : e.2 ∈ (a :: as).erase v := (List.mem_erase_of_ne hv2).2 h2
          by_cases hv1 : e.1 = v
          · rw [hv1, List.indexOf_cons_self, List.indexOf_cons_ne _ (Ne.symm hv2)]
            exact Nat.succ_pos _
          · have h1' : e.1 ∈ (a :: as).erase v := (List.mem_erase_of_ne hv1).2 h1
            rw [List.indexOf_cons_ne _ (Ne.symm hv1), List.indexOf_cons_ne _ (Ne.symm hv2)]
            exact Nat.succ_lt_succ (ih _ _ hk e heE h1' h2')

theorem reachN_indexOf_lt (E : List (String × String)) (l : List String)
    (hresp : ∀ e ∈ E, l.indexOf e.1 < l.indexOf e.2) :
    ∀ (n : ℕ) (u w : String), ReachN E (n + 1) u w → l.indexOf u < l.indexOf w := by
  intro n
  induction n with
  | zero =>
    intro u w hr
    obtain ⟨p, hpE, hp1, hp2⟩ := hr
    have h2 : p.2 = w := hp2
    exact hp1 ▸ h2 ▸ hresp p hpE
  | succ n ih =>
    intro u w hr
    obtain ⟨p, hpE, hp1, hp2⟩ := hr
    exact lt_trans (hp1 ▸ hresp p hpE) (ih p.2 w hp2)

theorem kahnAux_no_cycle (E : List (String × String)) (rem l : List String)
    (hEv : ∀ e ∈ E, e.1 ∈ rem ∧ e.2 ∈ rem)
    (h : kahnAux E rem.length rem = some l) : ¬ HasCycle E := by
  rintro ⟨v, n, hr⟩
  have hresp : ∀ e ∈ E, l.indexOf e.1 < l.indexOf e.2 := fun e he =>
    kahnAux_sorted E _ _ _ h e he (hEv e he).1 (hEv e he).2
  exact absurd (reachN_indexOf_lt E l hresp n v v hr) (lt_irrefl _)

theorem pickZero_none_hasCycle (E : List (String × String)) (rem : List String)
    (hne : rem ≠ []) (h : pickZero E rem = none) : HasCycle E := by
  have hpred : ∀ v ∈ rem, ∃ u, u ∈ rem ∧ (u, v) ∈ E := by
    intro v hv
    obtain ⟨e, heE, he2, he1⟩ := pickZero_none h v hv
    refine ⟨e.1, he1, ?_⟩
    rw [← he2]
    exact heE
  obtain ⟨v0, hv0⟩ := List.exists_mem_of_ne_nil rem hne
  set g : ℕ → String :=
    fun n => Nat.rec v0 (fun _ prev => if hp : prev ∈ rem then (hpred prev hp).choose else prev) n
    with hgdef
  have hg : ∀ n, g n ∈ rem := by
    intro n
    induction n with
    | zero => exact hv0
    | succ n ihn =>
      show (if hp : g n ∈ rem then (hpred (g n) hp).choose else g n) ∈ rem
      rw [dif_pos ihn]
      exact ((hpred (g n) ihn).choose_spec).1
  have hedge : ∀ n, (g (n + 1), g n) ∈ E := by
    intro n
    show ((if hp : g n ∈ rem then (hpred (g n) hp).choose else g n), g n) ∈ E
    rw [dif_pos (hg n)]
    exact ((hpred (g n) (hg n)).choose_spec).2
  have hre : ∀ (d s : ℕ), ReachN E d (g (s + d)) (g s) := by
    intro d
    induction d with
    | zero => intro s; exact rfl
    | succ d ihd =>
      intro s
      exact ⟨(g (s + d + 1), g (s + d)), hedge (s + d), rfl, ihd s⟩
  have hmaps : ∀ i : Fin (rem.length + 1), i ∈ Finset.univ → g i ∈ rem.toFinset :=
    fun i _ => List.mem_toFinset.2 (hg i)
  have hcard : rem.toFinset.card < (Finset.univ : Finset (Fin (rem.length + 1))).card := by
    rw [Finset.card_univ, Fintype.card_fin]
    exact Nat.lt_succ_of_le rem.toFinset_card_le
  obtain ⟨i, _, j, _, hij, hgij⟩ :=
    Finset.exists_ne_map_eq_of_card_lt_of_maps_to hcard hmaps
  have key : ∀ (a b : Fin (rem.length + 1)), a < b → g a = g b → HasCycle E := by
    intro a b hab heq
    have hd : 1 ≤ (b : ℕ) - (a : ℕ) := by
      have : (a : ℕ) < (b : ℕ) := hab
      omega
    have hr : ReachN E ((b : ℕ) - (a : ℕ)) (g ((a : ℕ) + ((b : ℕ) - (a : ℕ)))) (g a) := hre _ _
    rw [Nat.add_sub_cancel' (Nat.le_of_lt hab)] at hr
    rw [heq] at hr
    exact ⟨g b, (b : ℕ) - (a : ℕ) - 1, by rwa [Nat.sub_add_cancel hd]⟩
  rcases Ne.lt_or_lt hij with hlt | hlt
  · exact key i j hlt hgij
  · exact key j i hlt hgij.symm

theorem kahnAux_some_of_acyclic (E : List (String × String)) :
    ∀ (fuel : ℕ) (rem : List String), rem.length ≤ fuel → ¬ HasCycle E →
      ∃ l, kahnAux E fuel rem = some l := by
  intro fuel
  induction fuel with
  | zero =>
    intro rem hlen _
    have : rem = [] := List.eq_nil_of_length_eq_zero (Nat.le_zero.1 hlen)
    subst this
    exact ⟨[], rfl⟩
  | succ n ih =>
    intro rem hlen hacyc
    cases rem with
    | nil => exact ⟨[], rfl⟩
    | cons a as =>
      cases hp : pickZero E (a :: as) with
      | none => exact absurd (pickZero_none_hasCycle E _ (by simp) hp) hacyc
      | some v =>
        have hv := pickZero_mem hp
        have hlen' : ((a :: as).erase v).length ≤ n := by
          rw [List.length_erase_of_mem hv]
          simpa using Nat.le_of_succ_le_succ hlen
        obtain ⟨l', hl'⟩ := ih _ hlen' hacyc
        refine ⟨v :: l', ?_⟩
        simp only [kahnAux, hp, hl', Option.map_some']

theorem kahnAux_NOrd (E : List (String × String)) :
    ∀ (fuel : ℕ) (rem l : List String), kahnAux E fuel rem = some l → NOrd E l := by
  intro fuel
  induction fuel with
  | zero =>
    intro rem l h
    cases rem with
    | nil =>
      simp only [kahnAux, Option.some.injEq] at h
      rw [← h]
      trivial
    | cons a as => exact Option.noConfusion (by simpa only [kahnAux] using h)
  | succ n ih =>
    intro rem l h
    cases rem with
    | nil =>
      simp only [kahnAux, Option.some.injEq] at h
      rw [← h]
      trivial
    | cons a as =>
      have hperm := kahnAux_perm E _ _ _ h
      simp only [kahnAux] at h
      cases hp : pickZero E (a :: as) with
      | none => simp only [hp] at h; exact Option.noConfusion h
      | some v =>
        simp only [hp] at h
        cases hk : kahnAux E n ((a :: as).erase v) with
        | none => simp only [hk, Option.map_none'] at h; exact Option.noConfusion h
        | some l' =>
          simp only [hk, Option.map_some', Option.some.injEq] at h
          subst h
          refine ⟨?_, ih _ _ hk⟩
          intro e heE he2 he1
          exact pickZero_no_incoming hp e heE he2 (hperm.subset he1)

/-! ### Graph-construction lemmas -/

theorem subset_addVert (vs : List String) (v : String) : vs ⊆ addVert vs v := by
  unfold addVert
  by_cases h : v ∈ vs
  · simp [h]
  · rw [if_neg h]
    exact List.subset_append_left _ _

theorem mem_addVert_self (vs : List String) (v : String) : v ∈ addVert vs v := by
  unfold addVert
  by_cases h : v ∈ vs
  · rw [if_pos h]
    exact h
  · rw [if_neg h]
    simp

theorem addVert_nodup {vs : List String} (h : vs.Nodup) (v : String) : (addVert vs v).Nodup := by
  unfold addVert
  by_cases hv : v ∈ vs
  · rw [if_pos hv]
    exact h
  · rw [if_neg hv]
    simp [List.nodup_append, h, hv]

theorem subset_foldl_addVert (es : List (String × String)) :
    ∀ acc : List String, acc ⊆ es.foldl (fun vs e => addVert (addVert vs e.1) e.2) acc := by
  induction es with
  | nil => intro acc; exact List.Subset.refl _
  | cons e rest ih =>
    intro acc
    exact Trans.trans (Trans.trans (subset_addVert acc e.1) (subset_addVert _ e.2)) (ih _)

theorem foldl_addVert_eq_of_mem (es : List (String × String)) :
    ∀ acc : List String, (∀ e ∈ es, e.1 ∈ acc ∧ e.2 ∈ acc) →
      es.foldl (fun vs e => addVert (addVert vs e.1) e.2) acc = acc := by
  induction es with
  | nil => intro acc _; rfl
  | cons e rest ih =>
    intro acc hmem
    have h1 := (hmem e (List.mem_cons_self _ _)).1
    have h2 := (hmem e (List.mem_cons_self _ _)).2
    have hstep : addVert (addVert acc e.1) e.2 = acc := by
      unfold addVert
      simp [h1, h2]
    rw [List.foldl_cons, hstep]
    exact ih acc (fun e' he' => hmem e' (List.mem_cons_of_mem _ he'))

theorem endpoints_mem_foldl_addVert (es : List (String × String)) :
    ∀ (acc : List String) (e : String × String), e ∈ es →
      e.1 ∈ es.foldl (fun vs e => addVert (addVert vs e.1) e.2) acc ∧
      e.2 ∈ es.foldl (fun vs e => addVert (addVert vs e.1) e.2) acc := by
  induction es with
  | nil => intro acc e he; exact absurd he (List.not_mem_nil _)
  | cons e0 rest ih =>
    intro acc e he
    rw [List.foldl_cons]
    rcases List.mem_cons.1 he with he | he
    · subst he
      constructor
      · exact subset_foldl_addVert rest _
          ((subset_addVert _ _) (mem_addVert_self acc e.1))
      · exact subset_foldl_addVert rest _ (mem_addVert_self _ e.2)
    · exact ih _ e he

theorem foldl_addVert_nodup (es : List (String × String)) :
    ∀ acc : List String, acc.Nodup →
      (es.foldl (fun vs e => addVert (addVert vs e.1) e.2) acc).Nodup := by
  induction es with
  | nil => intro acc h; exact h
  | cons e rest ih =>
    intro acc h
    exact ih _ (addVert_nodup (addVert_nodup h e.1) e.2)

theorem names_subset_graphVerts (dbn : DBN) :
    dbn.nodes.map Prod.fst ⊆ graphVerts dbn :=
  subset_foldl_addVert _ _

theorem graphVerts_nodup (dbn : DBN) (h : (dbn.nodes.map Prod.fst).Nodup) :
    (graphVerts dbn).Nodup :=
  foldl_addVert_nodup _ _ h

theorem endpoints_mem_graphVerts (dbn : DBN) (e : String × String)
    (he : e ∈ zeroLagEdges dbn) : e.1 ∈ graphVerts dbn ∧ e.2 ∈ graphVerts dbn :=
  endpoints_mem_foldl_addVert _ _ e he

theorem foldl_append_flatMap {α β : Type} (f : α → List β) :
    ∀ (l : List α) (acc : List β),
      l.foldl (fun es x => es ++ f x) acc = acc ++ l.flatMap f := by
  intro l
  induction l with
  | nil => intro acc; simp
  | cons a rest ih =>
    intro acc
    simp [ih, List.append_assoc]

theorem mem_zeroLagEdges {dbn : DBN} {e : String × String} :
    e ∈ zeroLagEdges dbn ↔
      ∃ nd ∈ dbn.nodes.map Prod.snd, ∃ pl ∈ DNode.parents nd,
        pl.2 = 0 ∧ e = (pl.1, nd.name) := by
  unfold zeroLagEdges
  rw [foldl_append_flatMap]
  simp only [List.nil_append, List.mem_flatMap, List.mem_filterMap]
  constructor
  · rintro ⟨nd, hnd, pl, hpl, he⟩
    by_cases h0 : pl.2 = 0
    · rw [if_pos h0] at he
      exact ⟨nd, hnd, pl, hpl, h0, (Option.some.inj he).symm⟩
    · rw [if_neg h0] at he
      exact Option.noConfusion he
  · rintro ⟨nd, hnd, pl, hpl, h0, he⟩
    exact ⟨nd, hnd, pl, hpl, by rw [if_pos h0, he]⟩

theorem graphVerts_eq_names (dbn : DBN) (hres : parentsResolve dbn)
    (hkey : ∀ p ∈ dbn.nodes, DNode.name p.2 = p.1) :
    graphVerts dbn = dbn.nodes.map Prod.fst := by
  unfold graphVerts
  apply foldl_addVert_eq_of_mem
  intro e he
  obtain ⟨nd, hnd, pl, hpl, _, he⟩ := mem_zeroLagEdges.1 he
  obtain ⟨p, hp, hpeq⟩ := List.mem_map.1 hnd
  constructor
  · obtain ⟨q, hq, hqeq⟩ := hres p hp pl (hpeq ▸ hpl)
    rw [he]
    exact hqeq ▸ List.mem_map.2 ⟨q, hq, rfl⟩
  · rw [he]
    have : nd.name = p.1 := hpeq ▸ hkey p hp
    exact this ▸ List.mem_map.2 ⟨p, hp, rfl⟩

/-! ### lookupNodes lemmas -/

theorem lookupNodes_forall₂ {nodes : List (String × DNode)} :
    ∀ {l : List String} {order : List DNode}, lookupNodes nodes l = .ok order →
      List.Forall₂ (fun nm nd => dictGet nodes nm = some nd) l order := by
  intro l
  induction l with
  | nil =>
    intro order h
    simp only [lookupNodes, Except.ok.injEq] at h
    rw [← h]
    exact List.Forall₂.nil
  | cons nm rest ih =>
    intro order h
    simp only [lookupNodes] at h
    cases hg : dictGet nodes nm with
    | none => rw [hg] at h; exact Except.noConfusion h
    | some nd =>
      rw [hg] at h
      cases hk : lookupNodes nodes rest with
      | error e => rw [hk] at h; exact Except.noConfusion h
      | ok l' =>
        rw [hk] at h
        simp only [Except.map, Except.ok.injEq] at h
        rw [← h]
        exact List.Forall₂.cons hg (ih hk)

theorem lookupNodes_ok_of_keys {nodes : List (String × DNode)} :
    ∀ (l : List String), (∀ nm ∈ l, nm ∈ nodes.map Prod.fst) →
      ∃ order, lookupNodes nodes l = .ok order := by
  intro l
  induction l with
  | nil => intro _; exact ⟨[], rfl⟩
  | cons nm rest ih =>
    intro hmem
    obtain ⟨nd, hnd⟩ := dictGet_of_mem_keys (hmem nm (List.mem_cons_self _ _))
    obtain ⟨order', horder'⟩ := ih (fun x hx => hmem x (List.mem_cons_of_mem _ hx))
    exact ⟨nd :: order', by simp only [lookupNodes, hnd, horder', Except.map]⟩

theorem forall₂_map_name {dbn : DBN} (hkey : ∀ p ∈ dbn.nodes, DNode.name p.2 = p.1) :
    ∀ {l : List String} {order : List DNode},
      List.Forall₂ (fun nm nd => dictGet dbn.nodes nm = some nd) l order →
      order.map DNode.name = l := by
  intro l order h
  induction h with
  | nil => rfl
  | cons hrel _ ih =>
    simp only [List.map_cons, ih, List.cons.injEq, and_true]
    exact hkey _ (dictGet_mem hrel)

theorem forall₂_mem_right {R : String → DNode → Prop} :
    ∀ {l : List String} {order : List DNode}, List.Forall₂ R l order →
      ∀ nd ∈ order, ∃ nm ∈ l, R nm nd := by
  intro l order h
  induction h with
  | nil => intro nd hnd; exact absurd hnd (List.not_mem_nil _)
  | cons hrel _ ih =>
    intro nd hnd
    rcases List.mem_cons.1 hnd with hnd | hnd
    · exact ⟨_, List.mem_cons_self _ _, hnd ▸ hrel⟩
    · obtain ⟨nm, hnm, hr⟩ := ih nd hnd
      exact ⟨nm, List.mem_cons_of_mem _ hnm, hr⟩

theorem forall₂_mem_left {R : String → DNode → Prop} :
    ∀ {l : List String} {order : List DNode}, List.Forall₂ R l order →
      ∀ nm ∈ l, ∃ nd ∈ order, R nm nd := by
  intro l order h
  induction h with
  | nil => intro nm hnm; exact absurd hnm (List.not_mem_nil _)
  | cons hrel _ ih =>
    intro nm hnm
    rcases List.mem_cons.1 hnm with hnm | hnm
    · exact ⟨_, List.mem_cons_self _ _, hnm ▸ hrel⟩
    · obtain ⟨nd, hnd, hr⟩ := ih nm hnm
      exact ⟨nd, List.mem_cons_of_mem _ hnd, hr⟩

/-! ### Table lemmas -/

theorem hasKey_iff_mem_keys (T : Table) (nm : String) :
    hasKey T nm ↔ nm ∈ T.map Prod.fst := by
  unfold hasKey
  constructor
  · intro h
    obtain ⟨col, hcol⟩ := Option.isSome_iff_exists.1 h
    exact mem_keys_of_dictGet hcol
  · intro h
    obtain ⟨col, hcol⟩ := dictGet_of_mem_keys h
    exact Option.isSome_iff_exists.2 ⟨col, hcol⟩

theorem cell_dictSet_self (T : Table) (nm : String) (col : List ℚ) (i : ℕ) :
    cell (dictSet T nm col) nm i = col.getD i 0 := by
  unfold cell
  rw [dictGet_dictSet_self]
  rfl

theorem cell_dictSet_ne (T : Table) (nm nm' : String) (col : List ℚ) (i : ℕ)
    (h : nm' ≠ nm) : cell (dictSet T nm col) nm' i = cell T nm' i := by
  unfold cell
  rw [dictGet_dictSet_ne _ _ _ _ h]

theorem hasKey_dictSet_iff (T : Table) (nm nm' : String) (col : List ℚ) :
    hasKey (dictSet T nm col) nm' ↔ nm' = nm ∨ hasKey T nm' := by
  rw [hasKey_iff_mem_keys, hasKey_iff_mem_keys, mem_keys_dictSet_iff]

theorem cell_of_dictGet {T : Table} {nm : String} {col : List ℚ}
    (h : dictGet T nm = some col) (i : ℕ) : cell T nm i = col.getD i 0 := by
  unfold cell
  rw [h]
  rfl

theorem getD_set_self (col : List ℚ) (t : ℕ) (v : ℚ) (h : t < col.length) :
    (col.set t v).getD t 0 = v := by
  rw [List.getD_eq_getElem?_getD, List.getElem?_set_self h]
  rfl

theorem getD_set_ne (col : List ℚ) (t i : ℕ) (v : ℚ) (h : t ≠ i) :
    (col.set t v).getD i 0 = col.getD i 0 := by
  rw [List.getD_eq_getElem?_getD, List.getElem?_set_ne h, ← List.getD_eq_getElem?_getD]

/-! ### buildParentVals lemmas -/

theorem buildParentVals_err {T : Table} {repl : ℚ} {t : ℕ} :
    ∀ {ps : List (String × ℕ)} {acc} {e}, buildParentVals T repl t ps acc = .error e →
      ∃ nm, e = .keyErr nm := by
  intro ps
  induction ps with
  | nil =>
    intro acc e h
    exact Except.noConfusion h
  | cons pl rest ih =>
    intro acc e h
    obtain ⟨p, lag⟩ := pl
    simp only [buildParentVals] at h
    by_cases hlag : lag ≤ t
    · rw [if_pos hlag] at h
      cases hg : dictGet T p with
      | none =>
        rw [hg] at h
        exact ⟨p, (Except.error.inj h).symm⟩
      | some col =>
        rw [hg] at h
        exact ih h
    · rw [if_neg hlag] at h
      exact ih h

theorem buildParentVals_ok_eq {T : Table} {repl : ℚ} {t : ℕ} :
    ∀ {ps : List (String × ℕ)} {acc pv}, buildParentVals T repl t ps acc = .ok pv →
      pv = pureParentVals T repl t ps acc := by
  intro ps
  induction ps with
  | nil =>
    intro acc pv h
    exact (Except.ok.inj h).symm
  | cons pl rest ih =>
    intro acc pv h
    obtain ⟨p, lag⟩ := pl
    simp only [buildParentVals, pureParentVals] at h ⊢
    by_cases hlag : lag ≤ t
    · rw [if_pos hlag] at h ⊢
      cases hg : dictGet T p with
      | none =>
        rw [hg] at h
        exact Except.noConfusion h
      | some col =>
        rw [hg] at h
        rw [show cell T p (t - lag) = col.getD (t - lag) 0 from cell_of_dictGet hg _]
        exact ih h
    · rw [if_neg hlag] at h ⊢
      exact ih h

theorem buildParentVals_ok_of_keys {T : Table} {repl : ℚ} {t : ℕ} :
    ∀ (ps : List (String × ℕ)) (acc), (∀ pl ∈ ps, pl.2 ≤ t → hasKey T pl.1) →
      buildParentVals T repl t ps acc = .ok (pureParentVals T repl t ps acc) := by
  intro ps
  induction ps with
  | nil => intro acc _; rfl
  | cons pl rest ih =>
    intro acc hk
    obtain ⟨p, lag⟩ := pl
    simp only [buildParentVals, pureParentVals]
    by_cases hlag : lag ≤ t
    · rw [if_pos hlag, if_pos hlag]
      obtain ⟨col, hcol⟩ := Option.isSome_iff_exists.1 (hk (p, lag) (List.mem_cons_self _ _) hlag)
      rw [hcol, show cell T p (t - lag) = col.getD (t - lag) 0 from cell_of_dictGet hcol _]
      exact ih _ (fun pl h hl => hk pl (List.mem_cons_of_mem _ h) hl)
    · rw [if_neg hlag, if_neg hlag]
      exact ih _ (fun pl h hl => hk pl (List.mem_cons_of_mem _ h) hl)

theorem pureParentVals_congr {T T' : Table} {repl : ℚ} {t : ℕ} :
    ∀ (ps : List (String × ℕ)) (acc),
      (∀ pl ∈ ps, pl.2 ≤ t → cell T pl.1 (t - pl.2) = cell T' pl.1 (t - pl.2)) →
      pureParentVals T repl t ps acc = pureParentVals T' repl t ps acc := by
  intro ps
  induction ps with
  | nil => intro acc _; rfl
  | cons pl rest ih =>
    intro acc hc
    obtain ⟨p, lag⟩ := pl
    simp only [pureParentVals]
    by_cases hlag : lag ≤ t
    · rw [if_pos hlag, if_pos hlag, hc (p, lag) (List.mem_cons_self _ _) hlag]
      exact ih _ (fun pl h hl => hc pl (List.mem_cons_of_mem _ h) hl)
    · rw [if_neg hlag, if_neg hlag]
      exact ih _ (fun pl h hl => hc pl (List.mem_cons_of_mem _ h) hl)

/-! ### stepNodes lemmas -/

theorem stepNodes_err {noise : String → ℕ → ℚ} {repl : ℚ} {time : ℚ} {t : ℕ} :
    ∀ {os : List DNode} {T : Table} {e}, stepNodes noise repl time t os T = .error e →
      ∃ nm, e = .keyErr nm := by
  intro os
  induction os with
  | nil =>
    intro T e h
    exact Except.noConfusion h
  | cons nd rest ih =>
    intro T e h
    cases nd with
    | temporal nm tf =>
      simp only [stepNodes] at h
      cases hg : dictGet T nm with
      | none => rw [hg] at h; exact ⟨nm, (Except.error.inj h).symm⟩
      | some col => rw [hg] at h; exact ih h
    | node nm ps cpd =>
      simp only [stepNodes] at h
      cases hb : buildParentVals T repl t ps [] with
      | error e' =>
        rw [hb] at h
        exact (Except.error.inj h) ▸ buildParentVals_err hb
      | ok pv =>
        rw [hb] at h
        cases hg : dictGet T nm with
        | none => rw [hg] at h; exact ⟨nm, (Except.error.inj h).symm⟩
        | some col => rw [hg] at h; exact ih h

theorem stepNodes_hasKey {noise : String → ℕ → ℚ} {repl : ℚ} {time : ℚ} {t : ℕ} :
    ∀ {os : List DNode} {T T' : Table}, stepNodes noise repl time t os T = .ok T' →
      ∀ nm, hasKey T' nm ↔ hasKey T nm := by
  intro os
  induction os with
  | nil =>
    intro T T' h nm
    rw [Except.ok.inj h]
  | cons nd rest ih =>
    intro T T' h nm
    cases nd with
    | temporal nm0 tf =>
      simp only [stepNodes] at h
      cases hg : dictGet T nm0 with
      | none => rw [hg] at h; exact Except.noConfusion h
      | some col =>
        rw [hg] at h
        rw [ih h nm, hasKey_dictSet_iff]
        constructor
        · rintro (rfl | hk)
          · exact Option.isSome_iff_exists.2 ⟨col, hg⟩
          · exact hk
        · exact Or.inr
    | node nm0 ps cpd =>
      simp only [stepNodes] at h
      cases hb : buildParentVals T repl t ps [] with
      | error e' => rw [hb] at h; exact Except.noConfusion h
      | ok pv =>
        rw [hb] at h
        cases hg : dictGet T nm0 with
        | none => rw [hg] at h; exact Except.noConfusion h
        | some col =>
          rw [hg] at h
          rw [ih h nm, hasKey_dictSet_iff]
          constructor
          · rintro (rfl | hk)
            · exact Option.isSome_iff_exists.2 ⟨col, hg⟩
            · exact hk
          · exact Or.inr

theorem stepNodes_length {noise : String → ℕ → ℚ} {repl : ℚ} {time : ℚ} {t : ℕ} {n : ℕ} :
    ∀ {os : List DNode} {T T' : Table}, stepNodes noise repl time t os T = .ok T' →
      (∀ nm col, dictGet T nm = some col → col.length = n) →
      ∀ nm col, dictGet T' nm = some col → col.length = n := by
  intro os
  induction os with
  | nil =>
    intro T T' h hcl
    rw [← Except.ok.inj h]
    exact hcl
  | cons nd rest ih =>
    intro T T' h hcl
    cases nd with
    | temporal nm0 tf =>
      simp only [stepNodes] at h
      cases hg : dictGet T nm0 with
      | none => rw [hg] at h; exact Except.noConfusion h
      | some col =>
        rw [hg] at h
        refine ih h ?_
        intro nm col' hcol'
        by_cases hnm : nm = nm0
        · subst hnm
          rw [dictGet_dictSet_self] at hcol'
          rw [← Option.some.inj hcol', List.length_set]
          exact hcl _ _ hg
        · rw [dictGet_dictSet_ne _ _ _ _ hnm] at hcol'
          exact hcl _ _ hcol'
    | node nm0 ps cpd =>
      simp only [stepNodes] at h
      cases hb : buildParentVals T repl t ps [] with
      | error e' => rw [hb] at h; exact Except.noConfusion h
      | ok pv =>
        rw [hb] at h
        cases hg : dictGet T nm0 with
        | none => rw [hg] at h; exact Except.noConfusion h
        | some col =>
          rw [hg] at h
          refine ih h ?_
          intro nm col' hcol'
          by_cases hnm : nm = nm0
          · subst hnm
            rw [dictGet_dictSet_self] at hcol'
            rw [← Option.some.inj hcol', List.length_set]
            exact hcl _ _ hg
          · rw [dictGet_dictSet_ne _ _ _ _ hnm] at hcol'
            exact hcl _ _ hcol'

theorem stepNodes_stable_ne {noise : String → ℕ → ℚ} {repl : ℚ} {time : ℚ} {t : ℕ} :
    ∀ {os : List DNode} {T T' : Table}, stepNodes noise repl time t os T = .ok T' →
      ∀ nm i, i ≠ t → cell T' nm i = cell T nm i := by
  intro os
  induction os with
  | nil =>
    intro T T' h nm i _
    rw [Except.ok.inj h]
  | cons nd rest ih =>
    intro T T' h nm i hi
    cases nd with
    | temporal nm0 tf =>
      simp only [stepNodes] at h
      cases hg : dictGet T nm0 with
      | none => rw [hg] at h; exact Except.noConfusion h
      | some col =>
        rw [hg] at h
        rw [ih h nm i hi]
        by_cases hnm : nm = nm0
        · subst hnm
          rw [cell_dictSet_self, getD_set_ne _ _ _ _ (Ne.symm hi), cell_of_dictGet hg]
        · rw [cell_dictSet_ne _ _ _ _ _ hnm]
    | node nm0 ps cpd =>
      simp only [stepNodes] at h
      cases hb : buildParentVals T repl t ps [] with
      | error e' => rw [hb] at h; exact Except.noConfusion h
      | ok pv =>
        rw [hb] at h
        cases hg : dictGet T nm0 with
        | none => rw [hg] at h; exact Except.noConfusion h
        | some col =>
          rw [hg] at h
          rw [ih h nm i hi]
          by_cases hnm : nm = nm0
          · subst hnm
            rw [cell_dictSet_self, getD_set_ne _ _ _ _ (Ne.symm hi), cell_of_dictGet hg]
          · rw [cell_dictSet_ne _ _ _ _ _ hnm]

theorem stepNodes_stable_notmem {noise : String → ℕ → ℚ} {repl : ℚ} {time : ℚ} {t : ℕ} :
    ∀ {os : List DNode} {T T' : Table}, stepNodes noise repl time t os T = .ok T' →
      ∀ nm, nm ∉ os.map DNode.name → ∀ i, cell T' nm i = cell T nm i := by
  intro os
  induction os with
  | nil =>
    intro T T' h nm _ i
    rw [Except.ok.inj h]
  | cons nd rest ih =>
    intro T T' h nm hnm i
    have hnm2 : nm ∉ rest.map DNode.name := fun hc => hnm (List.mem_cons_of_mem _ hc)
    cases nd with
    | temporal nm0 tf =>
      have hnm1 : nm ≠ nm0 := fun hc => hnm (hc ▸ List.mem_cons_self _ _)
      simp only [stepNodes] at h
      cases hg : dictGet T nm0 with
      | none => rw [hg] at h; exact Except.noConfusion h
      | some col =>
        rw [hg] at h
        rw [ih h nm hnm2 i, cell_dictSet_ne _ _ _ _ _ hnm1]
    | node nm0 ps cpd =>
      have hnm1 : nm ≠ nm0 := fun hc => hnm (hc ▸ List.mem_cons_self _ _)
      simp only [stepNodes] at h
      cases hb : buildParentVals T repl t ps [] with
      | error e' => rw [hb] at h; exact Except.noConfusion h
      | ok pv =>
        rw [hb] at h
        cases hg : dictGet T nm0 with
        | none => rw [hg] at h; exact Except.noConfusion h
        | some col =>
          rw [hg] at h
          rw [ih h nm hnm2 i, cell_dictSet_ne _ _ _ _ _ hnm1]

theorem stepNodes_ok_of {noise : String → ℕ → ℚ} {repl : ℚ} {time : ℚ} {t : ℕ} :
    ∀ (os : List DNode) (T : Table),
      (∀ nd ∈ os, hasKey T nd.name) →
      (∀ nd ∈ os, ∀ pl ∈ DNode.parents nd, hasKey T pl.1) →
      ∃ T', stepNodes noise repl time t os T = .ok T' := by
  intro os
  induction os with
  | nil => intro T _ _; exact ⟨T, rfl⟩
  | cons nd rest ih =>
    intro T hks hkp
    have hT1 : ∀ nm0 nm', hasKey T nm' → ∀ c, hasKey (dictSet T nm0 c) nm' := by
      intro nm0 nm' h c
      exact (hasKey_dictSet_iff _ _ _ _).2 (Or.inr h)
    cases nd with
    | temporal nm0 tf =>
      have hkey : hasKey T nm0 := hks _ (List.mem_cons_self _ _)
      obtain ⟨col, hcol⟩ := Option.isSome_iff_exists.1 hkey
      simp only [stepNodes, hcol]
      exact ih _ (fun nd' h => hT1 _ _ (hks nd' (List.mem_cons_of_mem _ h)) _)
        (fun nd' h pl hpl => hT1 _ _ (hkp nd' (List.mem_cons_of_mem _ h) pl hpl) _)
    | node nm0 ps cpd =>
      have hkey : hasKey T nm0 := hks _ (List.mem_cons_self _ _)
      obtain ⟨col, hcol⟩ := Option.isSome_iff_exists.1 hkey
      have hb : buildParentVals T repl t ps []
          = .ok (pureParentVals T repl t ps []) :=
        buildParentVals_ok_of_keys ps []
          (fun pl h _ => hkp _ (List.mem_cons_self _ _) pl h)
      simp only [stepNodes, hb, hcol]
      exact ih _ (fun nd' h => hT1 _ _ (hks nd' (List.mem_cons_of_mem _ h)) _)
        (fun nd' h pl hpl => hT1 _ _ (hkp nd' (List.mem_cons_of_mem _ h) pl hpl) _)

theorem dictSet_set_length {T : Table} {n : ℕ}
    (hcl : ∀ nm col, dictGet T nm = some col → col.length = n)
    {nm0 : String} {col : List ℚ} (hg : dictGet T nm0 = some col) (t : ℕ) (v : ℚ) :
    ∀ nm c, dictGet (dictSet T nm0 (col.set t v)) nm = some c → c.length = n := by
  intro nm c hc
  by_cases hnm : nm = nm0
  · subst hnm
    rw [dictGet_dictSet_self] at hc
    rw [← Option.some.inj hc, List.length_set]
    exact hcl _ _ hg
  · rw [dictGet_dictSet_ne _ _ _ _ hnm] at hc
    exact hcl _ _ hc

/-- The heart of claim C3: after a successful `stepNodes` pass at
timestep `t` over a suffix `os` of a Kahn order (no vertex of `os` has
an incoming zero-lag edge from itself or a later vertex), the value
stored for each node of `os` at row `t` equals its `specNodeValue` READ
AGAINST THE POST-PASS TABLE: zero-lag parents were written before the
reading node and are untouched afterwards, and `lag ≥ 1` reads hit rows
`< t` that the pass never writes. -/
theorem stepNodes_correct (E : List (String × String)) {noise : String → ℕ → ℚ}
    {repl : ℚ} {time : ℚ} {t : ℕ} {n : ℕ} :
    ∀ (os : List DNode) (T T' : Table),
      stepNodes noise repl time t os T = .ok T' →
      NOrd E (os.map DNode.name) →
      (os.map DNode.name).Nodup →
      (∀ nd ∈ os, ∀ pl ∈ DNode.parents nd, pl.2 = 0 → (pl.1, DNode.name nd) ∈ E) →
      (∀ nm col, dictGet T nm = some col → col.length = n) →
      t < n →
      ∀ nd ∈ os, cell T' (DNode.name nd) t = specNodeValue noise repl time t T' nd := by
  intro os
  induction os with
  | nil =>
    intro T T' _ _ _ _ _ _ nd hnd
    exact absurd hnd (List.not_mem_nil _)
  | cons nd0 rest ih =>
    intro T T' h hno hnodup hedge hcl ht nd hnd
    rw [List.map_cons] at hno hnodup
    obtain ⟨hno0, hnoRest⟩ := hno
    have hnd0rest : DNode.name nd0 ∉ rest.map DNode.name := (List.nodup_cons.1 hnodup).1
    have hnodupRest : (rest.map DNode.name).Nodup := (List.nodup_cons.1 hnodup).2
    have hedgeRest : ∀ nd ∈ rest, ∀ pl ∈ DNode.parents nd, pl.2 = 0 →
        (pl.1, DNode.name nd) ∈ E :=
      fun nd h pl hpl h0 => hedge nd (List.mem_cons_of_mem _ h) pl hpl h0
    cases nd0 with
    | temporal nm0 tf =>
      simp only [stepNodes] at h
      cases hg : dictGet T nm0 with
      | none => rw [hg] at h; exact Except.noConfusion h
      | some col =>
        rw [hg] at h
        have hcl1 := dictSet_set_length hcl hg t (tf time)
        rcases List.mem_cons.1 hnd with rfl | hnd
        · have hstable := stepNodes_stable_notmem h (DNode.name (.temporal nm0 tf)) hnd0rest t
          rw [hstable]
          show cell (dictSet T nm0 (col.set t (tf time))) nm0 t = tf time
          rw [cell_dictSet_self, getD_set_self]
          rw [hcl _ _ hg]
          exact ht
        · exact ih _ _ h hnoRest hnodupRest hedgeRest hcl1 ht nd hnd
    | node nm0 ps cpd =>
      simp only [stepNodes] at h
      cases hb : buildParentVals T repl t ps [] with
      | error e' => rw [hb] at h; exact Except.noConfusion h
      | ok pv =>
        rw [hb] at h
        cases hg : dictGet T nm0 with
        | none => rw [hg] at h; exact Except.noConfusion h
        | some col =>
          rw [hg] at h
          have hcl1 := dictSet_set_length hcl hg t (cpd.evaluate pv (noise nm0 t))
          rcases List.mem_cons.1 hnd with rfl | hnd
          · have hstable := stepNodes_stable_notmem h (DNode.name (.node nm0 ps cpd)) hnd0rest t
            rw [hstable]
            show cell (dictSet T nm0 (col.set t (cpd.evaluate pv (noise nm0 t)))) nm0 t
              = specNodeValue noise repl time t T' (.node nm0 ps cpd)
            rw [cell_dictSet_self, getD_set_self _ _ _ (by rw [hcl _ _ hg]; exact ht)]
            show cpd.evaluate pv (noise nm0 t)
              = cpd.evaluate (pureParentVals T' repl t ps []) (noise nm0 t)
            rw [buildParentVals_ok_eq hb]
            have hreads : ∀ pl ∈ ps, pl.2 ≤ t →
                cell T pl.1 (t - pl.2) = cell T' pl.1 (t - pl.2) := by
              intro pl hpl hle
              by_cases h0 : pl.2 = 0
              · have hE : (pl.1, nm0) ∈ E :=
                  hedge _ (List.mem_cons_self _ _) pl hpl h0
                have hnotin : pl.1 ∉ DNode.name (DNode.node nm0 ps cpd) :: rest.map DNode.name :=
                  hno0 (pl.1, nm0) hE rfl
                have hne : pl.1 ≠ nm0 := fun hc => hnotin (hc ▸ List.mem_cons_self _ _)
                have hnr : pl.1 ∉ rest.map DNode.name :=
                  fun hc => hnotin (List.mem_cons_of_mem _ hc)
                rw [h0]
                have h1 : cell T pl.1 (t - 0)
                    = cell (dictSet T nm0 (col.set t (cpd.evaluate pv (noise nm0 t)))) pl.1 (t - 0) :=
                  (cell_dictSet_ne _ _ _ _ _ hne).symm
                rw [h1, stepNodes_stable_notmem h pl.1 hnr (t - 0)]
              · have hne_t : t - pl.2 ≠ t := by omega
                have h1 : cell T pl.1 (t - pl.2)
                    = cell (dictSet T nm0 (col.set t (cpd.evaluate pv (noise nm0 t)))) pl.1 (t - pl.2) := by
                  by_cases hc : pl.1 = nm0
                  · subst hc
                    rw [cell_dictSet_self, getD_set_ne _ _ _ _ (Ne.symm hne_t),
                      cell_of_dictGet hg]
                  · rw [cell_dictSet_ne _ _ _ _ _ hc]
                rw [h1, stepNodes_stable_ne h pl.1 (t - pl.2) hne_t]
            rw [pureParentVals_congr ps [] hreads]
          · exact ih _ _ h hnoRest hnodupRest hedgeRest hcl1 ht nd hnd

/-! ### mainLoop lemmas -/

theorem mainLoop_err {noise : String → ℕ → ℚ} {repl : ℚ} {order : List DNode} :
    ∀ {pairs : List (ℚ × ℕ)} {T : Table} {e},
      mainLoop noise repl order pairs T = .error e → ∃ nm, e = .keyErr nm := by
  intro pairs
  induction pairs with
  | nil => intro T e h; exact Except.noConfusion h
  | cons pr rest ih =>
    intro T e h
    obtain ⟨time, t⟩ := pr
    simp only [mainLoop] at h
    cases hs : stepNodes noise repl time t order T with
    | error e' =>
      rw [hs] at h
      exact (Except.error.inj h) ▸ stepNodes_err hs
    | ok T1 =>
      rw [hs] at h
      exact ih h

theorem mainLoop_hasKey {noise : String → ℕ → ℚ} {repl : ℚ} {order : List DNode} :
    ∀ {pairs : List (ℚ × ℕ)} {T tbl : Table},
      mainLoop noise repl order pairs T = .ok tbl →
      ∀ nm, hasKey tbl nm ↔ hasKey T nm := by
  intro pairs
  induction pairs with
  | nil =>
    intro T tbl h nm
    rw [Except.ok.inj h]
  | cons pr rest ih =>
    intro T tbl h nm
    obtain ⟨time, t⟩ := pr
    simp only [mainLoop] at h
    cases hs : stepNodes noise repl time t order T with
    | error e' => rw [hs] at h; exact Except.noConfusion h
    | ok T1 =>
      rw [hs] at h
      rw [ih h nm, stepNodes_hasKey hs nm]

theorem mainLoop_length {noise : String → ℕ → ℚ} {repl : ℚ} {order : List DNode} {n : ℕ} :
    ∀ {pairs : List (ℚ × ℕ)} {T tbl : Table},
      mainLoop noise repl order pairs T = .ok tbl →
      (∀ nm col, dictGet T nm = some col → col.length = n) →
      ∀ nm col, dictGet tbl nm = some col → col.length = n := by
  intro pairs
  induction pairs with
  | nil =>
    intro T tbl h hcl
    rw [← Except.ok.inj h]
    exact hcl
  | cons pr rest ih =>
    intro T tbl h hcl
    obtain ⟨time, t⟩ := pr
    simp only [mainLoop] at h
    cases hs : stepNodes noise repl time t order T with
    | error e' => rw [hs] at h; exact Except.noConfusion h
    | ok T1 =>
      rw [hs] at h
      exact ih h (stepNodes_length hs hcl)

theorem mainLoop_stable_lt {noise : String → ℕ → ℚ} {repl : ℚ} {order : List DNode} :
    ∀ {pairs : List (ℚ × ℕ)} {T tbl : Table},
      mainLoop noise repl order pairs T = .ok tbl →
      ∀ nm i, (∀ pr ∈ pairs, i < pr.2) → cell tbl nm i = cell T nm i := by
  intro pairs
  induction pairs with
  | nil =>
    intro T tbl h nm i _
    rw [Except.ok.inj h]
  | cons pr rest ih =>
    intro T tbl h nm i hlt
    obtain ⟨time, t⟩ := pr
    simp only [mainLoop] at h
    cases hs : stepNodes noise repl time t order T with
    | error e' => rw [hs] at h; exact Except.noConfusion h
    | ok T1 =>
      rw [hs] at h
      rw [ih h nm i (fun pr hpr => hlt pr (List.mem_cons_of_mem _ hpr))]
      exact stepNodes_stable_ne hs nm i
        (Nat.ne_of_lt (hlt (time, t) (List.mem_cons_self _ _)))

theorem mainLoop_ok_of {noise : String → ℕ → ℚ} {repl : ℚ} {order : List DNode} :
    ∀ (pairs : List (ℚ × ℕ)) (T : Table),
      (∀ nd ∈ order, hasKey T (DNode.name nd)) →
      (∀ nd ∈ order, ∀ pl ∈ DNode.parents nd, hasKey T pl.1) →
      ∃ tbl, mainLoop noise repl order pairs T = .ok tbl := by
  intro pairs
  induction pairs with
  | nil => intro T _ _; exact ⟨T, rfl⟩
  | cons pr rest ih =>
    intro T hks hkp
    obtain ⟨time, t⟩ := pr
    obtain ⟨T1, hT1⟩ : ∃ T1, stepNodes noise repl time t order T = .ok T1 :=
      stepNodes_ok_of order T hks hkp
    obtain ⟨tbl, htbl⟩ := ih T1
      (fun nd h => (stepNodes_hasKey hT1 _).2 (hks nd h))
      (fun nd h pl hpl => (stepNodes_hasKey hT1 _).2 (hkp nd h pl hpl))
    refine ⟨tbl, ?_⟩
    simp only [mainLoop, hT1, htbl]

theorem specNodeValue_congr {noise : String → ℕ → ℚ} {repl : ℚ} {time : ℚ} {t : ℕ}
    {T T' : Table} (h : ∀ nm i, i ≤ t → cell T nm i = cell T' nm i) (nd : DNode) :
    specNodeValue noise repl time t T nd = specNodeValue noise repl time t T' nd := by
  cases nd with
  | temporal nm tf => rfl
  | node nm ps cpd =>
    show cpd.evaluate (pureParentVals T repl t ps []) (noise nm t)
      = cpd.evaluate (pureParentVals T' repl t ps []) (noise nm t)
    rw [pureParentVals_congr ps [] (fun pl _ _ => h pl.1 (t - pl.2) (Nat.sub_le _ _))]

/-- The outer-loop correctness behind claim C3: a successful `mainLoop`
run over strictly increasing timesteps stores, for every pair and every
node of the order, exactly the `specNodeValue` read against the FINAL
table. -/
theorem mainLoop_correct (E : List (String × String)) {noise : String → ℕ → ℚ}
    {repl : ℚ} {order : List DNode} {n : ℕ}
    (hno : NOrd E (order.map DNode.name))
    (hnodup : (order.map DNode.name).Nodup)
    (hedge : ∀ nd ∈ order, ∀ pl ∈ DNode.parents nd, pl.2 = 0 →
      (pl.1, DNode.name nd) ∈ E) :
    ∀ (pairs : List (ℚ × ℕ)) (T tbl : Table),
      mainLoop noise repl order pairs T = .ok tbl →
      (∀ nm col, dictGet T nm = some col → col.length = n) →
      (∀ pr ∈ pairs, pr.2 < n) →
      List.Pairwise (fun a b : ℚ × ℕ => a.2 < b.2) pairs →
      ∀ pr ∈ pairs, ∀ nd ∈ order,
        cell tbl (DNode.name nd) pr.2 = specNodeValue noise repl pr.1 pr.2 tbl nd := by
  intro pairs
  induction pairs with
  | nil =>
    intro T tbl _ _ _ _ pr hpr
    exact absurd hpr (List.not_mem_nil _)
  | cons pr0 rest ih =>
    intro T tbl h hcl hn hsort pr hpr
    obtain ⟨time, t⟩ := pr0
    simp only [mainLoop] at h
    cases hs : stepNodes noise repl time t order T with
    | error e' => rw [hs] at h; exact Except.noConfusion h
    | ok T1 =>
      rw [hs] at h
      have hcl1 := stepNodes_length hs hcl
      have hrest_gt : ∀ pr' ∈ rest, t < pr'.2 :=
        fun pr' h' => (List.pairwise_cons.1 hsort).1 pr' h'
      rcases List.mem_cons.1 hpr with rfl | hpr
      · intro nd hnd
        have hstep := stepNodes_correct E order T T1 hs hno hnodup hedge hcl
          (hn (time, t) (List.mem_cons_self _ _)) nd hnd
        have hstable : ∀ nm i, i ≤ t → cell T1 nm i = cell tbl nm i := by
          intro nm i hle
          exact (mainLoop_stable_lt h nm i
            (fun pr' h' => Nat.lt_of_le_of_lt hle (hrest_gt pr' h'))).symm
        rw [← hstable (DNode.name nd) t (le_refl t), hstep]
        exact specNodeValue_congr hstable nd
      · exact ih T1 tbl h hcl1 (fun pr' h' => hn pr' (List.mem_cons_of_mem _ h'))
          (List.pairwise_cons.1 hsort).2 pr hpr

/-! ### get_topological_order: shared success and cycle lemmas -/

theorem get_topological_order_ok_facts {dbn : DBN}
    (hnodup : (dbn.nodes.map Prod.fst).Nodup)
    (hkey : ∀ p ∈ dbn.nodes, DNode.name p.2 = p.1)
    (hres0 : ∀ e ∈ zeroLagEdges dbn, e.1 ∈ dbn.nodes.map Prod.fst)
    (hacyc : ¬ HasCycle (zeroLagEdges dbn)) :
    ∃ order, dbn.get_topological_order = .ok order ∧
      (order.map DNode.name).Perm (dbn.nodes.map Prod.fst) ∧
      NOrd (zeroLagEdges dbn) (order.map DNode.name) ∧
      (order.map DNode.name).Nodup ∧
      (∀ e ∈ zeroLagEdges dbn,
        (order.map DNode.name).indexOf e.1 < (order.map DNode.name).indexOf e.2) ∧
      (∀ nm nd, dictGet dbn.nodes nm = some nd → nd ∈ order) ∧
      (∀ nd ∈ order, ∃ nm, dictGet dbn.nodes nm = some nd) := by
  have hverts : graphVerts dbn = dbn.nodes.map Prod.fst := by
    unfold graphVerts
    apply foldl_addVert_eq_of_mem
    intro e he
    refine ⟨hres0 e he, ?_⟩
    obtain ⟨nd, hnd, pl, hpl, _, heq⟩ := mem_zeroLagEdges.1 he
    obtain ⟨p, hp, hpeq⟩ := List.mem_map.1 hnd
    rw [heq]
    have : nd.name = p.1 := hpeq ▸ hkey p hp
    exact this ▸ List.mem_map.2 ⟨p, hp, rfl⟩
  obtain ⟨names, hk⟩ := kahnAux_some_of_acyclic (zeroLagEdges dbn)
    (graphVerts dbn).length (graphVerts dbn) (le_refl _) hacyc
  have hperm : names.Perm (graphVerts dbn) := kahnAux_perm _ _ _ _ hk
  have hmem : ∀ nm ∈ names, nm ∈ dbn.nodes.map Prod.fst :=
    fun nm h => hverts ▸ hperm.subset h
  obtain ⟨order, horder⟩ := lookupNodes_ok_of_keys names hmem
  have hf2 := lookupNodes_forall₂ horder
  have hname : order.map DNode.name = names := forall₂_map_name hkey hf2
  refine ⟨order, ?_, ?_, ?_, ?_, ?_, ?_, ?_⟩
  · unfold DBN.get_topological_order
    simp only [hk]
    exact horder
  · rw [hname]
    exact hverts ▸ hperm
  · rw [hname]
    exact kahnAux_NOrd _ _ _ _ hk
  · rw [hname]
    exact hperm.symm.nodup (hverts ▸ hnodup)
  · intro e he
    rw [hname]
    have hEv := endpoints_mem_graphVerts dbn e he
    exact kahnAux_sorted _ _ _ _ hk e he hEv.1 hEv.2
  · intro nm nd hget
    have hnm : nm ∈ names := hperm.mem_iff.2 (hverts ▸ mem_keys_of_dictGet hget)
    obtain ⟨nd', hnd', hget'⟩ := forall₂_mem_left hf2 nm hnm
    rw [hget] at hget'
    rw [Option.some.inj hget']
    exact hnd'
  · intro nd hnd
    obtain ⟨nm, _, hget⟩ := forall₂_mem_right hf2 nd hnd
    exact ⟨nm, hget⟩

theorem get_topological_order_cycle (dbn : DBN)
    (hcyc : HasCycle (zeroLagEdges dbn)) :
    dbn.get_topological_order = .error .cycleDetected := by
  cases hk : kahnAux (zeroLagEdges dbn) (graphVerts dbn).length (graphVerts dbn) with
  | some l =>
    exact absurd hcyc
      (kahnAux_no_cycle _ _ _ (fun e he => endpoints_mem_graphVerts dbn e he) hk)
  | none =>
    unfold DBN.get_topological_order
    simp only [hk]

theorem lookupNodes_err {nodes : List (String × DNode)} :
    ∀ {l : List String} {e}, lookupNodes nodes l = .error e → ∃ nm, e = .keyErr nm := by
  intro l
  induction l with
  | nil => intro e h; exact Except.noConfusion h
  | cons nm rest ih =>
    intro e h
    simp only [lookupNodes] at h
    cases hg : dictGet nodes nm with
    | none =>
      rw [hg] at h
      exact ⟨nm, (Except.error.inj h).symm⟩
    | some nd =>
      rw [hg] at h
      cases hk : lookupNodes nodes rest with
      | error e' =>
        rw [hk] at h
        simp only [Except.map] at h
        exact (Except.error.inj h) ▸ ih hk
      | ok l' =>
        rw [hk] at h
        simp only [Except.map] at h
        exact Except.noConfusion h

theorem get_topological_order_err {dbn : DBN} {e : GenErr}
    (h : dbn.get_topological_order = .error e) :
    e = .cycleDetected ∨ ∃ nm, e = .keyErr nm := by
  unfold DBN.get_topological_order at h
  cases hk : kahnAux (zeroLagEdges dbn) (graphVerts dbn).length (graphVerts dbn) with
  | none =>
    rw [hk] at h
    exact Or.inl (Except.error.inj h).symm
  | some order =>
    rw [hk] at h
    exact Or.inr (lookupNodes_err h)

/-! ### Seeding and back-fill lemmas -/

theorem seedInitialValues_err {maxLag : ℕ} {iv : List (String × List ℚ)} :
    ∀ {names : List String} {T : Table} {e},
      seedInitialValues maxLag iv names T = .error e →
      (∃ nm, e = .keyErr nm) ∨ ∃ a b c, e = .initialValuesLength a b c := by
  intro names
  induction names with
  | nil => intro T e h; exact Except.noConfusion h
  | cons nm rest ih =>
    intro T e h
    simp only [seedInitialValues] at h
    cases hg : dictGet iv nm with
    | none =>
      simp only [hg] at h
      exact Or.inl ⟨nm, (Except.error.inj h).symm⟩
    | some entry =>
      simp only [hg] at h
      by_cases hlen : entry.length ≠ maxLag
      · rw [if_pos hlen] at h
        exact Or.inr ⟨maxLag, nm, entry.length, (Except.error.inj h).symm⟩
      · rw [if_neg hlen] at h
        cases hT : dictGet T nm with
        | none =>
          simp only [hT] at h
          exact Or.inl ⟨nm, (Except.error.inj h).symm⟩
        | some col =>
          simp only [hT] at h
          exact ih h

theorem seedInitialValues_ok_of {maxLag : ℕ} {iv : List (String × List ℚ)} :
    ∀ (names : List String) (T : Table),
      (∀ nm ∈ names, ∃ entry, dictGet iv nm = some entry ∧ entry.length = maxLag) →
      (∀ nm ∈ names, hasKey T nm) →
      ∃ T', seedInitialValues maxLag iv names T = .ok T' := by
  intro names
  induction names with
  | nil => intro T _ _; exact ⟨T, rfl⟩
  | cons nm rest ih =>
    intro T hent hk
    obtain ⟨entry, hg, hlen⟩ := hent nm (List.mem_cons_self _ _)
    obtain ⟨col, hcol⟩ := Option.isSome_iff_exists.1 (hk nm (List.mem_cons_self _ _))
    obtain ⟨T', hT'⟩ := ih (dictSet T nm (entry ++ col.drop maxLag))
      (fun nm' h => hent nm' (List.mem_cons_of_mem _ h))
      (fun nm' h => (hasKey_dictSet_iff _ _ _ _).2
        (Or.inr (hk nm' (List.mem_cons_of_mem _ h))))
    refine ⟨T', ?_⟩
    have hcond : ¬ entry.length ≠ maxLag := fun c => c hlen
    simp only [seedInitialValues, hg, hcol, if_neg hcond]
    exact hT'

theorem seedInitialValues_err_of_badlen {maxLag : ℕ} {iv : List (String × List ℚ)} :
    ∀ (names : List String) (T : Table),
      (∀ nm ∈ names, ∃ entry, dictGet iv nm = some entry) →
      (∀ nm ∈ names, hasKey T nm) →
      (∃ nm ∈ names, ∃ entry, dictGet iv nm = some entry ∧ entry.length ≠ maxLag) →
      ∃ nm a, seedInitialValues maxLag iv names T
        = .error (.initialValuesLength maxLag nm a) ∧ a ≠ maxLag := by
  intro names
  induction names with
  | nil =>
    intro T _ _ hbad
    obtain ⟨nm, hnm, _⟩ := hbad
    exact absurd hnm (List.not_mem_nil _)
  | cons nm0 rest ih =>
    intro T hent hk hbad
    obtain ⟨entry0, hg0⟩ := hent nm0 (List.mem_cons_self _ _)
    by_cases hlen0 : entry0.length ≠ maxLag
    · refine ⟨nm0, entry0.length, ?_, hlen0⟩
      simp only [seedInitialValues, hg0, if_pos hlen0]
    · obtain ⟨col, hcol⟩ := Option.isSome_iff_exists.1 (hk nm0 (List.mem_cons_self _ _))
      have hbad' : ∃ nm ∈ rest, ∃ entry, dictGet iv nm = some entry ∧ entry.length ≠ maxLag := by
        obtain ⟨nm, hnm, entry, hg, hlen⟩ := hbad
        rcases List.mem_cons.1 hnm with rfl | hnm
        · rw [hg0] at hg
          exact absurd ((Option.some.inj hg) ▸ hlen) hlen0
        · exact ⟨nm, hnm, entry, hg, hlen⟩
      obtain ⟨nm, a, hres, ha⟩ := ih (dictSet T nm0 (entry0 ++ col.drop maxLag))
        (fun nm' h => hent nm' (List.mem_cons_of_mem _ h))
        (fun nm' h => (hasKey_dictSet_iff _ _ _ _).2
          (Or.inr (hk nm' (List.mem_cons_of_mem _ h)))) hbad'
      refine ⟨nm, a, ?_, ha⟩
      simp only [seedInitialValues, hg0, hcol, if_neg hlen0]
      exact hres

theorem seedInitialValues_hasKey {maxLag : ℕ} {iv : List (String × List ℚ)} :
    ∀ {names : List String} {T T' : Table},
      seedInitialValues maxLag iv names T = .ok T' →
      ∀ nm, hasKey T' nm ↔ hasKey T nm := by
  intro names
  induction names with
  | nil =>
    intro T T' h nm
    rw [Except.ok.inj h]
  | cons nm0 rest ih =>
    intro T T' h nm
    simp only [seedInitialValues] at h
    cases hg : dictGet iv nm0 with
    | none => simp only [hg] at h; exact Except.noConfusion h
    | some entry =>
      simp only [hg] at h
      by_cases hlen : entry.length ≠ maxLag
      · rw [if_pos hlen] at h; exact Except.noConfusion h
      · rw [if_neg hlen] at h
        cases hT : dictGet T nm0 with
        | none => simp only [hT] at h; exact Except.noConfusion h
        | some col =>
          simp only [hT] at h
          rw [ih h nm, hasKey_dictSet_iff]
          constructor
          · rintro (rfl | hk)
            · exact Option.isSome_iff_exists.2 ⟨col, hT⟩
            · exact hk
          · exact Or.inr

theorem seedInitialValues_length {maxLag n : ℕ} {iv : List (String × List ℚ)}
    (hml : maxLag ≤ n) :
    ∀ {names : List String} {T T' : Table},
      seedInitialValues maxLag iv names T = .ok T' →
      (∀ nm col, dictGet T nm = some col → col.length = n) →
      ∀ nm col, dictGet T' nm = some col → col.length = n := by
  intro names
  induction names with
  | nil =>
    intro T T' h hcl
    rw [← Except.ok.inj h]
    exact hcl
  | cons nm0 rest ih =>
    intro T T' h hcl
    simp only [seedInitialValues] at h
    cases hg : dictGet iv nm0 with
    | none => simp only [hg] at h; exact Except.noConfusion h
    | some entry =>
      simp only [hg] at h
      by_cases hlen : entry.length ≠ maxLag
      · rw [if_pos hlen] at h; exact Except.noConfusion h
      · rw [if_neg hlen] at h
        cases hT : dictGet T nm0 with
        | none => simp only [hT] at h; exact Except.noConfusion h
        | some col =>
          simp only [hT] at h
          refine ih h ?_
          intro nm col' hcol'
          by_cases hnm : nm = nm0
          · subst hnm
            rw [dictGet_dictSet_self] at hcol'
            rw [← Option.some.inj hcol', List.length_append, List.length_drop]
            have h1 : entry.length = maxLag := Decidable.not_not.1 hlen
            have h2 : col.length = n := hcl _ _ hT
            omega
          · rw [dictGet_dictSet_ne _ _ _ _ hnm] at hcol'
            exact hcl _ _ hcol'

theorem backfillTemporal_cons_temporal {p0 : String × DNode}
    {rest : List (String × DNode)} {pre : List ℚ} {iv : List (String × List ℚ)}
    {nm : String} {tf : ℚ → ℚ} (hp0 : p0.2 = DNode.temporal nm tf) :
    backfillTemporal (p0 :: rest) pre iv
      = backfillTemporal rest pre (dictSet iv nm (pre.map tf)) := by
  unfold backfillTemporal
  rw [List.foldl_cons, hp0]

theorem backfillTemporal_cons_node {p0 : String × DNode}
    {rest : List (String × DNode)} {pre : List ℚ} {iv : List (String × List ℚ)}
    {nm : String} {ps : List (String × ℕ)} {cpd : LinearGaussianCPD}
    (hp0 : p0.2 = DNode.node nm ps cpd) :
    backfillTemporal (p0 :: rest) pre iv = backfillTemporal rest pre iv := by
  unfold backfillTemporal
  rw [List.foldl_cons, hp0]

theorem backfill_keys_superset {pre : List ℚ} :
    ∀ (nodes : List (String × DNode)) (iv : List (String × List ℚ)) (k : String),
      k ∈ iv.map Prod.fst → k ∈ (backfillTemporal nodes pre iv).map Prod.fst := by
  intro nodes
  induction nodes with
  | nil => intro iv k h; exact h
  | cons p rest ih =>
    intro iv k h
    cases hp : p.2 with
    | temporal nm tf =>
      rw [backfillTemporal_cons_temporal hp]
      exact ih _ k ((mem_keys_dictSet_iff _ _ _ _).2 (Or.inr h))
    | node nm ps cpd =>
      rw [backfillTemporal_cons_node hp]
      exact ih _ k h

theorem backfill_keys_temporal {pre : List ℚ} :
    ∀ (nodes : List (String × DNode)) (iv : List (String × List ℚ)),
      ∀ p ∈ nodes, ∀ nm tf, p.2 = DNode.temporal nm tf →
        nm ∈ (backfillTemporal nodes pre iv).map Prod.fst := by
  intro nodes
  induction nodes with
  | nil =>
    intro iv p hp
    exact absurd hp (List.not_mem_nil _)
  | cons p0 rest ih =>
    intro iv p hp nm tf hptmp
    rcases List.mem_cons.1 hp with rfl | hp
    · rw [backfillTemporal_cons_temporal hptmp]
      exact backfill_keys_superset rest _ nm
        ((mem_keys_dictSet_iff _ _ _ _).2 (Or.inl rfl))
    · cases hp0 : p0.2 with
      | temporal nm0 tf0 =>
        rw [backfillTemporal_cons_temporal hp0]
        exact ih _ p hp nm tf hptmp
      | node nm0 ps cpd =>
        rw [backfillTemporal_cons_node hp0]
        exact ih _ p hp nm tf hptmp

theorem backfill_keys_subset {pre : List ℚ} :
    ∀ (nodes : List (String × DNode)) (iv : List (String × List ℚ)) (k : String),
      k ∈ (backfillTemporal nodes pre iv).map Prod.fst →
      k ∈ iv.map Prod.fst ∨ ∃ p ∈ nodes, ∃ tf, p.2 = DNode.temporal k tf := by
  intro nodes
  induction nodes with
  | nil => intro iv k h; exact Or.inl h
  | cons p0 rest ih =>
    intro iv k h
    cases hp0 : p0.2 with
    | temporal nm0 tf0 =>
      rw [backfillTemporal_cons_temporal hp0] at h
      rcases ih _ k h with h' | ⟨p, hp, tf, hptmp⟩
      · rcases (mem_keys_dictSet_iff _ _ _ _).1 h' with rfl | h''
        · exact Or.inr ⟨p0, List.mem_cons_self _ _, tf0, hp0⟩
        · exact Or.inl h''
      · exact Or.inr ⟨p, List.mem_cons_of_mem _ hp, tf, hptmp⟩
    | node nm0 ps cpd =>
      rw [backfillTemporal_cons_node hp0] at h
      rcases ih _ k h with h' | ⟨p, hp, tf, hptmp⟩
      · exact Or.inl h'
      · exact Or.inr ⟨p, List.mem_cons_of_mem _ hp, tf, hptmp⟩

theorem backfill_get_nontemporal {pre : List ℚ} :
    ∀ (nodes : List (String × DNode)) (iv : List (String × List ℚ)) (nm : String),
      (∀ p ∈ nodes, ∀ nm' tf, p.2 = DNode.temporal nm' tf → nm' ≠ nm) →
      dictGet (backfillTemporal nodes pre iv) nm = dictGet iv nm := by
  intro nodes
  induction nodes with
  | nil => intro iv nm _; rfl
  | cons p0 rest ih =>
    intro iv nm hnt
    cases hp0 : p0.2 with
    | temporal nm0 tf0 =>
      rw [backfillTemporal_cons_temporal hp0]
      rw [ih _ nm (fun p hp nm' tf h => hnt p (List.mem_cons_of_mem _ hp) nm' tf h)]
      exact dictGet_dictSet_ne _ _ _ _
        (Ne.symm (hnt p0 (List.mem_cons_self _ _) nm0 tf0 hp0))
    | node nm0 ps cpd =>
      rw [backfillTemporal_cons_node hp0]
      exact ih _ nm (fun p hp nm' tf h => hnt p (List.mem_cons_of_mem _ hp) nm' tf h)

theorem backfill_get_temporal {pre : List ℚ} :
    ∀ (nodes : List (String × DNode)) (iv : List (String × List ℚ)),
      (∀ p ∈ nodes, DNode.name p.2 = p.1) →
      (nodes.map Prod.fst).Nodup →
      ∀ k nm tf, (k, DNode.temporal nm tf) ∈ nodes →
        dictGet (backfillTemporal nodes pre iv) nm = some (pre.map tf) := by
  intro nodes
  induction nodes with
  | nil =>
    intro iv _ _ k nm tf h
    exact absurd h (List.not_mem_nil _)
  | cons p0 rest ih =>
    intro iv hkey hnodup k nm tf hmem
    rcases List.mem_cons.1 hmem with heq | hmem
    · have hp0 : p0.2 = DNode.temporal nm tf := by rw [← heq]
      have hk0 : nm = p0.1 := by
        have := hkey p0 (List.mem_cons_self _ _)
        rw [hp0] at this
        exact this
      have hnotin : p0.1 ∉ rest.map Prod.fst := (List.nodup_cons.1 hnodup).1
      rw [backfillTemporal_cons_temporal hp0]
      rw [backfill_get_nontemporal rest _ nm ?_]
      · exact dictGet_dictSet_self _ _ _
      · intro p hp nm' tf' hptmp hc
        have hname : DNode.name p.2 = p.1 := hkey p (List.mem_cons_of_mem _ hp)
        rw [hptmp] at hname
        have hp1 : nm' = p.1 := hname
        have heq1 : p0.1 = p.1 := by
          rw [← hk0, ← hc]
          exact hp1
        apply hnotin
        rw [heq1]
        exact List.mem_map.2 ⟨p, hp, rfl⟩
    · have hnodup' : (rest.map Prod.fst).Nodup := (List.nodup_cons.1 hnodup).2
      have hkey' : ∀ p ∈ rest, DNode.name p.2 = p.1 :=
        fun p hp => hkey p (List.mem_cons_of_mem _ hp)
      cases hp0 : p0.2 with
      | temporal nm0 tf0 =>
        rw [backfillTemporal_cons_temporal hp0]
        exact ih _ hkey' hnodup' k nm tf hmem
      | node nm0 ps cpd =>
        rw [backfillTemporal_cons_node hp0]
        exact ih _ hkey' hnodup' k nm tf hmem

/-! ### Initial-table lemmas -/

theorem dictGet_map_const {l : List (String × DNode)} {c : List ℚ} :
    ∀ {nm : String} {col : List ℚ},
      dictGet (l.map (fun p => (p.1, c))) nm = some col → col = c := by
  induction l with
  | nil => intro nm col h; exact Option.noConfusion h
  | cons p rest ih =>
    intro nm col h
    by_cases hp : p.1 = nm
    · simp only [List.map_cons, dictGet, if_pos hp] at h
      exact (Option.some.inj h).symm
    · simp only [List.map_cons, dictGet, if_neg hp] at h
      exact ih h

theorem map_fst_map_const (l : List (String × DNode)) (c : List ℚ) :
    (l.map (fun p => (p.1, c))).map Prod.fst = l.map Prod.fst := by
  rw [List.map_map]
  rfl

theorem getD_replicate_zero (n i : ℕ) : (List.replicate n (0 : ℚ)).getD i 0 = 0 := by
  rw [List.getD_eq_getElem?_getD, List.getElem?_replicate]
  by_cases h : i < n
  · rw [if_pos h]
    rfl
  · rw [if_neg h]
    rfl

/-! ### seedStage and generateCore classification -/

theorem seedStage_err {dbn : DBN} {iv : Option (List (String × List ℚ))}
    {axis : List ℚ} {ts1 : Table} {e : GenErr}
    (h : seedStage dbn iv axis ts1 = .error e) :
    (∃ nm, e = .keyErr nm) ∨ (∃ a b c, e = .initialValuesLength a b c) ∨
      ∃ ms, e = .missingInitialValues ms := by
  cases iv with
  | none => exact Except.noConfusion h
  | some iv0 =>
    simp only [seedStage] at h
    by_cases hiv : iv0 = []
    · rw [if_pos hiv] at h
      exact Except.noConfusion h
    · rw [if_neg hiv] at h
      split at h
      · rcases seedInitialValues_err h with h' | h'
        · exact Or.inl h'
        · exact Or.inr (Or.inl h')
      · exact Or.inr (Or.inr ⟨_, (Except.error.inj h).symm⟩)

theorem seedStage_hasKey {dbn : DBN} {iv : Option (List (String × List ℚ))}
    {axis : List ℚ} {ts1 T' : Table}
    (h : seedStage dbn iv axis ts1 = .ok T') :
    ∀ nm, hasKey T' nm ↔ hasKey ts1 nm := by
  cases iv with
  | none =>
    intro nm
    rw [Except.ok.inj h]
  | some iv0 =>
    simp only [seedStage] at h
    by_cases hiv : iv0 = []
    · rw [if_pos hiv] at h
      intro nm
      rw [Except.ok.inj h]
    · rw [if_neg hiv] at h
      split at h
      · exact seedInitialValues_hasKey h
      · exact Except.noConfusion h

/-- Every error produced downstream of the start/frequency check is a
cycle, key, missing-initial-values, length or loc-slice error — never
one of the two start/frequency argument errors. -/
theorem generateCore_not_startfreq {dbn : DBN} {noise : String → ℕ → ℚ} {n : ℕ}
    {iv : Option (List (String × List ℚ))} {repl : ℚ} {tc : String} {excl : Bool}
    {axis : List ℚ} {e : GenErr}
    (h : generateCore dbn noise n iv repl tc excl axis = .error e) :
    e ≠ .startWithoutFrequency ∧ e ≠ .frequencyWithoutStart := by
  simp only [generateCore] at h
  split at h
  · obtain rfl : _ = e := Except.error.inj h
    rcases get_topological_order_err (by assumption) with rfl | ⟨nm, rfl⟩
    · exact ⟨fun c => GenErr.noConfusion c, fun c => GenErr.noConfusion c⟩
    · exact ⟨fun c => GenErr.noConfusion c, fun c => GenErr.noConfusion c⟩
  · split at h
    · obtain rfl : _ = e := Except.error.inj h
      rcases seedStage_err (by assumption) with ⟨nm, rfl⟩ | ⟨a, b, c, rfl⟩ | ⟨ms, rfl⟩
      · exact ⟨fun c => GenErr.noConfusion c, fun c => GenErr.noConfusion c⟩
      · exact ⟨fun c => GenErr.noConfusion c, fun c => GenErr.noConfusion c⟩
      · exact ⟨fun c => GenErr.noConfusion c, fun c => GenErr.noConfusion c⟩
    · split at h
      · obtain rfl : _ = e := Except.error.inj h
        obtain ⟨nm, rfl⟩ := mainLoop_err (by assumption)
        exact ⟨fun c => GenErr.noConfusion c, fun c => GenErr.noConfusion c⟩
      · split at h
        · obtain rfl : _ = e := Except.error.inj h
          exact ⟨fun c => GenErr.noConfusion c, fun c => GenErr.noConfusion c⟩
        · exact Except.noConfusion h

/-! ### Claim C2: start/frequency consistency check -/

/-- C2. For every call to `generate` in which exactly one of
`start_time` and `frequency` is provided, `generate` fails with the
corresponding argument error — the check precedes the topological sort,
the initial-value handling and the whole generation loop, so it fires
before any sample value is produced; and whenever both or neither are
provided, neither of these two argument errors is ever the result (all
downstream failures carry different error codes). -/
theorem C2_start_frequency_check (dbn : DBN)
    (genDT : ℕ → String → String → Option String → List ℚ)
    (noise : String → ℕ → ℚ) (n : ℕ) (iv : Option (List (String × List ℚ)))
    (repl : ℚ) (tc : String) (fmt : Option String) (excl : Bool) :
    (∀ s, Sampler.generate dbn genDT noise n iv repl tc (some s) none fmt excl
      = .error .startWithoutFrequency) ∧
    (∀ f, Sampler.generate dbn genDT noise n iv repl tc none (some f) fmt excl
      = .error .frequencyWithoutStart) ∧
    (∀ st fr, ((st = none ∧ fr = none) ∨ (st.isSome ∧ fr.isSome)) →
      Sampler.generate dbn genDT noise n iv repl tc st fr fmt excl
        ≠ .error .startWithoutFrequency ∧
      Sampler.generate dbn genDT noise n iv repl tc st fr fmt excl
        ≠ .error .frequencyWithoutStart) := by
  refine ⟨fun s => rfl, fun f => rfl, ?_⟩
  intro st fr hst
  rcases hst with ⟨rfl, rfl⟩ | ⟨hs, hf⟩
  · exact ⟨fun h => absurd rfl (generateCore_not_startfreq h).1,
      fun h => absurd rfl (generateCore_not_startfreq h).2⟩
  · obtain ⟨a, rfl⟩ := Option.isSome_iff_exists.1 hs
    obtain ⟨b, rfl⟩ := Option.isSome_iff_exists.1 hf
    exact ⟨fun h => absurd rfl (generateCore_not_startfreq h).1,
      fun h => absurd rfl (generateCore_not_startfreq h).2⟩

/-! ### generateCore success-path helpers -/

theorem zeroLag_res_of_parentsResolve {dbn : DBN} (hres : parentsResolve dbn) :
    ∀ e ∈ zeroLagEdges dbn, e.1 ∈ dbn.nodes.map Prod.fst := by
  intro e he
  obtain ⟨nd, hnd, pl, hpl, _, heq⟩ := mem_zeroLagEdges.1 he
  obtain ⟨p, hp, hpeq⟩ := List.mem_map.1 hnd
  obtain ⟨q, hq, hqeq⟩ := hres p hp pl (hpeq ▸ hpl)
  rw [heq]
  exact hqeq ▸ List.mem_map.2 ⟨q, hq, rfl⟩

theorem mem_range'_bounds {i s n : ℕ} (h : i ∈ List.range' s n) :
    s ≤ i ∧ i < s + n := by
  rw [List.mem_range'] at h
  obtain ⟨j, hj, rfl⟩ := h
  omega

theorem hasKey_ts1 {dbn : DBN} {n : ℕ} {tc : String} {axis : List ℚ} {nm : String}
    (h : nm ∈ dbn.nodes.map Prod.fst) :
    hasKey (dictSet (dbn.nodes.map (fun p => (p.1, List.replicate n (0 : ℚ)))) tc axis) nm := by
  rw [hasKey_iff_mem_keys, mem_keys_dictSet_iff]
  exact Or.inr (by rw [map_fst_map_const]; exact h)

theorem cell_ts1_zero {dbn : DBN} {n : ℕ} {tc : String} {axis : List ℚ} {nm : String}
    (hnm : nm ∈ dbn.nodes.map Prod.fst) (htc : nm ≠ tc) (i : ℕ) :
    cell (dictSet (dbn.nodes.map (fun p => (p.1, List.replicate n (0 : ℚ)))) tc axis) nm i
      = 0 := by
  rw [cell_dictSet_ne _ _ _ _ _ htc]
  obtain ⟨col, hcol⟩ := dictGet_of_mem_keys
    (by rw [map_fst_map_const]; exact hnm :
      nm ∈ (dbn.nodes.map (fun p => (p.1, List.replicate n (0 : ℚ)))).map Prod.fst)
  rw [cell_of_dictGet hcol, dictGet_map_const hcol]
  exact getD_replicate_zero n i

theorem length_ts1 {dbn : DBN} {n : ℕ} {tc : String} {axis : List ℚ}
    (hax : axis.length = n) :
    ∀ nm col, dictGet (dictSet (dbn.nodes.map (fun p => (p.1, List.replicate n (0 : ℚ)))) tc axis) nm
      = some col → col.length = n := by
  intro nm col hcol
  by_cases hnm : nm = tc
  · subst hnm
    rw [dictGet_dictSet_self] at hcol
    rw [← Option.some.inj hcol]
    exact hax
  · rw [dictGet_dictSet_ne _ _ _ _ hnm] at hcol
    rw [dictGet_map_const hcol]
    exact List.length_replicate n 0

theorem order_keys_of_facts {dbn : DBN}
    (hkey : ∀ p ∈ dbn.nodes, DNode.name p.2 = p.1)
    {order : List DNode} (hord_mem : ∀ nd ∈ order, ∃ nm, dictGet dbn.nodes nm = some nd) :
    ∀ nd ∈ order, DNode.name nd ∈ dbn.nodes.map Prod.fst := by
  intro nd hnd
  obtain ⟨nm, hget⟩ := hord_mem nd hnd
  have hmem := dictGet_mem hget
  have := hkey (nm, nd) hmem
  exact this ▸ List.mem_map.2 ⟨(nm, nd), hmem, rfl⟩

theorem order_parents_resolve {dbn : DBN} (hres : parentsResolve dbn)
    {order : List DNode} (hord_mem : ∀ nd ∈ order, ∃ nm, dictGet dbn.nodes nm = some nd) :
    ∀ nd ∈ order, ∀ pl ∈ DNode.parents nd, pl.1 ∈ dbn.nodes.map Prod.fst := by
  intro nd hnd pl hpl
  obtain ⟨nm, hget⟩ := hord_mem nd hnd
  obtain ⟨q, hq, hqeq⟩ := hres (nm, nd) (dictGet_mem hget) pl hpl
  exact hqeq ▸ List.mem_map.2 ⟨q, hq, rfl⟩

/-- The zero-lag edge of every `(parent, 0)` pair of a node reachable
through the dict is in the edge list. -/
theorem order_edges {dbn : DBN}
    {order : List DNode} (hord_mem : ∀ nd ∈ order, ∃ nm, dictGet dbn.nodes nm = some nd) :
    ∀ nd ∈ order, ∀ pl ∈ DNode.parents nd, pl.2 = 0 →
      (pl.1, DNode.name nd) ∈ zeroLagEdges dbn := by
  intro nd hnd pl hpl h0
  obtain ⟨nm, hget⟩ := hord_mem nd hnd
  exact mem_zeroLagEdges.2
    ⟨nd, List.mem_map.2 ⟨(nm, nd), dictGet_mem hget, rfl⟩, pl, hpl, h0, rfl⟩

/-- Claim C10 at the `generateCore` level: with the empty (but not
`None`) `initial_values` dict, no back-fill, no validation and no
seeding happen, the generation loop starts at `max_lag`, and the first
`max_lag` rows of every node column keep the 0.0 placeholder. -/
theorem generateCore_empty_iv (dbn : DBN) (noise : String → ℕ → ℚ) (n : ℕ)
    (repl : ℚ) (tc : String) (axis : List ℚ)
    (hwf : dbn.WF) (hres : parentsResolve dbn)
    (hacyc : ¬ HasCycle (zeroLagEdges dbn))
    (htc : tc ∉ dbn.nodes.map Prod.fst) :
    ∃ tbl, generateCore dbn noise n (some []) repl tc false axis = .ok tbl ∧
      ∀ nm ∈ dbn.nodes.map Prod.fst, ∀ i, i < dbn.max_lag → cell tbl nm i = 0 := by
  obtain ⟨hnodup, hkey⟩ := hwf
  obtain ⟨order, hok, hperm, hno, hnodupord, hsorted, hmem_ord, hord_mem⟩ :=
    get_topological_order_ok_facts hnodup hkey (zeroLag_res_of_parentsResolve hres) hacyc
  obtain ⟨tbl, htbl⟩ : ∃ tbl,
      mainLoop noise repl order
        ((axis.drop dbn.max_lag).zip (List.range' dbn.max_lag (n - dbn.max_lag)))
        (dictSet (dbn.nodes.map (fun p => (p.1, List.replicate n (0 : ℚ)))) tc axis)
      = .ok tbl :=
    mainLoop_ok_of _ _
      (fun nd hnd => hasKey_ts1 (order_keys_of_facts hkey hord_mem nd hnd))
      (fun nd hnd pl hpl => hasKey_ts1 (order_parents_resolve hres hord_mem nd hnd pl hpl))
  refine ⟨tbl, ?_, ?_⟩
  · simp only [generateCore, hok, seedStage, if_pos rfl, if_true, htbl]
    rfl
  · intro nm hnm i hi
    have hstable := mainLoop_stable_lt htbl nm i ?_
    · rw [hstable]
      refine cell_ts1_zero hnm (fun hc => htc ?_) i
      rw [← hc]
      exact hnm
    · intro pr hpr
      have := (mem_range'_bounds (List.of_mem_zip hpr).2).1
      omega

/-! ### Claim C5 machinery -/

theorem mem_unique_of_nodup_keys {κ α : Type} [DecidableEq κ] :
    ∀ {d : List (κ × α)}, (d.map Prod.fst).Nodup →
      ∀ {k : κ} {v1 v2 : α}, (k, v1) ∈ d → (k, v2) ∈ d → v1 = v2 := by
  intro d
  induction d with
  | nil =>
    intro _ k v1 v2 h1
    exact absurd h1 (List.not_mem_nil _)
  | cons p rest ih =>
    intro hnodup k v1 v2 h1 h2
    rw [List.map_cons] at hnodup
    have hnotin := (List.nodup_cons.1 hnodup).1
    have hrest := (List.nodup_cons.1 hnodup).2
    rcases List.mem_cons.1 h1 with h1 | h1
    · rcases List.mem_cons.1 h2 with h2 | h2
      · rw [← h1] at h2
        have h2' := h2.symm
        rw [Prod.mk.injEq] at h2'
        exact h2'.2
      · exfalso
        apply hnotin
        rw [← h1]
        exact List.mem_map.2 ⟨(k, v2), h2, rfl⟩
    · rcases List.mem_cons.1 h2 with h2 | h2
      · exfalso
        apply hnotin
        rw [← h2]
        exact List.mem_map.2 ⟨(k, v1), h1, rfl⟩
      · exact ih hrest h1 h2

theorem no_temporal_named {dbn : DBN}
    (hnodup : (dbn.nodes.map Prod.fst).Nodup)
    (hkey : ∀ p ∈ dbn.nodes, DNode.name p.2 = p.1)
    {nm : String} {nd : DNode} (hmem : (nm, nd) ∈ dbn.nodes)
    (hnt : DNode.isTemporal nd = false) :
    ∀ p ∈ dbn.nodes, ∀ nm' tf, p.2 = DNode.temporal nm' tf → nm' ≠ nm := by
  intro p hp nm' tf hptmp hc
  have hname : DNode.name p.2 = p.1 := hkey p hp
  rw [hptmp] at hname
  have hp1 : p.1 = nm := by
    rw [← hname]
    exact hc
  have hpmem : (nm, p.2) ∈ dbn.nodes := by
    rw [← hp1]
    exact hp
  have heqnd : p.2 = nd := mem_unique_of_nodup_keys hnodup hpmem hmem
  rw [hptmp] at heqnd
  rw [← heqnd] at hnt
  exact Bool.noConfusion hnt

/-- The key-set guard of the `initial_values` block passes whenever the
caller's keys are node names and every non-temporal name is provided
(after back-fill the two key sets coincide). -/
theorem iv_guard_true {dbn : DBN} {axis : List ℚ} {iv0 : List (String × List ℚ)}
    (hnodup : (dbn.nodes.map Prod.fst).Nodup)
    (hkey : ∀ p ∈ dbn.nodes, DNode.name p.2 = p.1)
    (hsub : ∀ k ∈ iv0.map Prod.fst, k ∈ dbn.nodes.map Prod.fst)
    (hnt : ∀ nm nd, (nm, nd) ∈ dbn.nodes → DNode.isTemporal nd = false →
      nm ∈ iv0.map Prod.fst) :
    (((dbn.nodes.map Prod.fst).all
        (fun n => ((backfillTemporal dbn.nodes (axis.take dbn.max_lag) iv0).map Prod.fst).contains n)) &&
      (((backfillTemporal dbn.nodes (axis.take dbn.max_lag) iv0).map Prod.fst).all
        (fun k => (dbn.nodes.map Prod.fst).contains k))) = true := by
  rw [Bool.and_eq_true]
  constructor
  · rw [List.all_eq_true]
    intro nm hnm
    obtain ⟨p, hp, hpeq⟩ := List.mem_map.1 hnm
    apply List.elem_eq_true_of_mem
    cases hpnd : p.2 with
    | temporal nm' tf =>
      have : nm' = p.1 := by
        have := hkey p hp
        rw [hpnd] at this
        exact this
      rw [← hpeq, ← this]
      exact backfill_keys_temporal dbn.nodes iv0 p hp nm' tf hpnd
    | node nm' ps cpd =>
      apply backfill_keys_superset
      rw [← hpeq]
      apply hnt p.1 p.2 hp
      rw [hpnd]
      rfl
  · rw [List.all_eq_true]
    intro k hk
    apply List.elem_eq_true_of_mem
    rcases backfill_keys_subset dbn.nodes iv0 k hk with h | ⟨p, hp, tf, hptmp⟩
    · exact hsub k h
    · have hname : DNode.name p.2 = p.1 := hkey p hp
      rw [hptmp] at hname
      have hk1 : k = p.1 := hname
      rw [hk1]
      exact List.mem_map.2 ⟨p, hp, rfl⟩

theorem iv_guard_false {dbn : DBN} {axis : List ℚ} {iv0 : List (String × List ℚ)}
    (hnodup : (dbn.nodes.map Prod.fst).Nodup)
    (hkey : ∀ p ∈ dbn.nodes, DNode.name p.2 = p.1)
    {nm : String} {nd : DNode} (hmem : (nm, nd) ∈ dbn.nodes)
    (hntmp : DNode.isTemporal nd = false)
    (hmiss : nm ∉ iv0.map Prod.fst) :
    nm ∉ (backfillTemporal dbn.nodes (axis.take dbn.max_lag) iv0).map Prod.fst := by
  intro hc
  rcases backfill_keys_subset dbn.nodes iv0 nm hc with h | ⟨p, hp, tf, hptmp⟩
  · exact hmiss h
  · exact no_temporal_named hnodup hkey hmem hntmp p hp nm tf hptmp rfl

/-- C5(a) at `generateCore` level: a non-temporal node missing from a
non-empty `initial_values` is reported, by name, in the
missing-initial-values error. -/
theorem generateCore_iv_missing (dbn : DBN) (noise : String → ℕ → ℚ) (n : ℕ)
    (repl : ℚ) (tc : String) (excl : Bool) (axis : List ℚ)
    {iv0 : List (String × List ℚ)} {nm : String} {nd : DNode}
    (hwf : dbn.WF) (hres : parentsResolve dbn)
    (hacyc : ¬ HasCycle (zeroLagEdges dbn))
    (hiv : iv0 ≠ [])
    (hnode : (nm, nd) ∈ dbn.nodes) (hntmp : DNode.isTemporal nd = false)
    (hmiss : nm ∉ iv0.map Prod.fst) :
    ∃ ms, generateCore dbn noise n (some iv0) repl tc excl axis
        = .error (.missingInitialValues ms) ∧ nm ∈ ms := by
  obtain ⟨hnodup, hkey⟩ := hwf
  obtain ⟨order, hok, _, _, _, _, _, _⟩ :=
    get_topological_order_ok_facts hnodup hkey (zeroLag_res_of_parentsResolve hres) hacyc
  have hnm_names : nm ∈ dbn.nodes.map Prod.fst := List.mem_map.2 ⟨(nm, nd), hnode, rfl⟩
  have hnot : nm ∉ (backfillTemporal dbn.nodes (axis.take dbn.max_lag) iv0).map Prod.fst :=
    iv_guard_false hnodup hkey hnode hntmp hmiss
  have hcont : ((backfillTemporal dbn.nodes (axis.take dbn.max_lag) iv0).map Prod.fst).contains nm
      = false := by
    rw [Bool.eq_false_iff]
    intro hc
    exact hnot (List.mem_of_elem_eq_true hc)
  have hcond : ¬ ((((dbn.nodes.map Prod.fst).all
      (fun k => ((backfillTemporal dbn.nodes (axis.take dbn.max_lag) iv0).map Prod.fst).contains k)) &&
      (((backfillTemporal dbn.nodes (axis.take dbn.max_lag) iv0).map Prod.fst).all
      (fun k => (dbn.nodes.map Prod.fst).contains k))) = true) := by
    intro hc
    rw [Bool.and_eq_true] at hc
    have h2 := List.all_eq_true.1 hc.1 nm hnm_names
    rw [hcont] at h2
    exact Bool.noConfusion h2
  refine ⟨(dbn.nodes.map Prod.fst).filter
    (fun k => !(((backfillTemporal dbn.nodes (axis.take dbn.max_lag) iv0).map Prod.fst).contains k)),
    ?_, ?_⟩
  · simp only [generateCore, hok, seedStage, if_neg hiv, if_neg hcond]
  · apply List.mem_filter.2
    refine ⟨hnm_names, ?_⟩
    rw [hcont]
    rfl

/-- C5(b) at `generateCore` level: once every non-temporal node has an
entry and no foreign keys are present, a wrong-length entry for a
non-temporal node triggers the length error, which names the expected
count (`max_lag`) and an actual count differing from it. -/
theorem generateCore_iv_badlen (dbn : DBN) (noise : String → ℕ → ℚ) (n : ℕ)
    (repl : ℚ) (tc : String) (excl : Bool) (axis : List ℚ)
    {iv0 : List (String × List ℚ)}
    (hwf : dbn.WF) (hres : parentsResolve dbn)
    (hacyc : ¬ HasCycle (zeroLagEdges dbn))
    (hml : dbn.max_lag ≤ n) (haxlen : axis.length = n)
    (hiv : iv0 ≠ [])
    (hsub : ∀ k ∈ iv0.map Prod.fst, k ∈ dbn.nodes.map Prod.fst)
    (hnt : ∀ nm nd, (nm, nd) ∈ dbn.nodes → DNode.isTemporal nd = false →
      nm ∈ iv0.map Prod.fst)
    (hbad : ∃ nm nd entry, (nm, nd) ∈ dbn.nodes ∧ DNode.isTemporal nd = false ∧
      dictGet iv0 nm = some entry ∧ entry.length ≠ dbn.max_lag) :
    ∃ nm a, generateCore dbn noise n (some iv0) repl tc excl axis
        = .error (.initialValuesLength dbn.max_lag nm a) ∧ a ≠ dbn.max_lag := by
  obtain ⟨hnodup, hkey⟩ := hwf
  obtain ⟨order, hok, _, _, _, _, _, _⟩ :=
    get_topological_order_ok_facts hnodup hkey (zeroLag_res_of_parentsResolve hres) hacyc
  have hcond := @iv_guard_true dbn axis iv0 hnodup hkey hsub hnt
  have hpresent : ∀ nm ∈ dbn.nodes.map Prod.fst,
      ∃ entry, dictGet (backfillTemporal dbn.nodes (axis.take dbn.max_lag) iv0) nm
        = some entry := by
    intro nm hnm
    apply dictGet_of_mem_keys
    have hcond' := hcond
    rw [Bool.and_eq_true] at hcond'
    have h2 := List.all_eq_true.1 hcond'.1 nm hnm
    exact List.mem_of_elem_eq_true h2
  obtain ⟨nmb, ndb, entry, hmemb, hntmpb, hgetb, hlenb⟩ := hbad
  have hbad' : ∃ nm ∈ dbn.nodes.map Prod.fst, ∃ entry,
      dictGet (backfillTemporal dbn.nodes (axis.take dbn.max_lag) iv0) nm = some entry ∧
      entry.length ≠ dbn.max_lag := by
    refine ⟨nmb, List.mem_map.2 ⟨(nmb, ndb), hmemb, rfl⟩, entry, ?_, hlenb⟩
    rw [backfill_get_nontemporal dbn.nodes iv0 nmb
      (no_temporal_named hnodup hkey hmemb hntmpb)]
    exact hgetb
  obtain ⟨nm', a, hseed, ha⟩ := seedInitialValues_err_of_badlen
    (dbn.nodes.map Prod.fst)
    (dictSet (dbn.nodes.map (fun p => (p.1, List.replicate n (0 : ℚ)))) tc axis)
    hpresent (fun nm hnm => hasKey_ts1 hnm) hbad'
  refine ⟨nm', a, ?_, ha⟩
  simp only [generateCore, hok, seedStage, if_neg hiv, if_pos hcond, hseed]

/-- C5(c) at `generateCore` level: temporal nodes need not be supplied —
when every non-temporal node has a correct-length entry and no foreign
keys are present, generation succeeds regardless of what (if anything)
the caller supplied for the temporal nodes, whose initial window is the
time feature evaluated on the first `max_lag` time-axis entries. -/
theorem generateCore_iv_ok (dbn : DBN) (noise : String → ℕ → ℚ) (n : ℕ)
    (repl : ℚ) (tc : String) (axis : List ℚ)
    {iv0 : List (String × List ℚ)}
    (hwf : dbn.WF) (hres : parentsResolve dbn)
    (hacyc : ¬ HasCycle (zeroLagEdges dbn))
    (hml : dbn.max_lag ≤ n) (haxlen : axis.length = n)
    (hiv : iv0 ≠ [])
    (hsub : ∀ k ∈ iv0.map Prod.fst, k ∈ dbn.nodes.map Prod.fst)
    (hgood : ∀ nm nd, (nm, nd) ∈ dbn.nodes → DNode.isTemporal nd = false →
      ∃ entry, dictGet iv0 nm = some entry ∧ entry.length = dbn.max_lag) :
    ∃ tbl, generateCore dbn noise n (some iv0) repl tc false axis = .ok tbl := by
  obtain ⟨hnodup, hkey⟩ := hwf
  obtain ⟨order, hok, _, _, _, _, _, hord_mem⟩ :=
    get_topological_order_ok_facts hnodup hkey (zeroLag_res_of_parentsResolve hres) hacyc
  have hnt : ∀ nm nd, (nm, nd) ∈ dbn.nodes → DNode.isTemporal nd = false →
      nm ∈ iv0.map Prod.fst := by
    intro nm nd hmem hntmp
    obtain ⟨entry, hget, _⟩ := hgood nm nd hmem hntmp
    exact mem_keys_of_dictGet hget
  have hcond := @iv_guard_true dbn axis iv0 hnodup hkey hsub hnt
  have hentries : ∀ nm ∈ dbn.nodes.map Prod.fst,
      ∃ entry, dictGet (backfillTemporal dbn.nodes (axis.take dbn.max_lag) iv0) nm
        = some entry ∧ entry.length = dbn.max_lag := by
    intro nm hnm
    obtain ⟨nd, hget⟩ := dictGet_of_mem_keys hnm
    have hmem := dictGet_mem hget
    cases hnd : nd with
    | temporal nm' tf =>
      have hnm' : nm' = nm := by
        have := hkey (nm, nd) hmem
        rw [hnd] at this
        exact this
      subst hnm'
      rw [hnd] at hmem
      refine ⟨(axis.take dbn.max_lag).map tf, ?_, ?_⟩
      · exact backfill_get_temporal dbn.nodes iv0 hkey hnodup nm' nm' tf hmem
      · rw [List.length_map, List.length_take, haxlen]
        omega
    | node nm' ps cpd =>
      obtain ⟨entry, hget0, hlen⟩ := hgood nm nd hmem (by rw [hnd]; rfl)
      refine ⟨entry, ?_, hlen⟩
      rw [backfill_get_nontemporal dbn.nodes iv0 nm
        (no_temporal_named hnodup hkey hmem (by rw [hnd]; rfl))]
      exact hget0
  obtain ⟨seeded, hseed⟩ := seedInitialValues_ok_of (dbn.nodes.map Prod.fst)
    (dictSet (dbn.nodes.map (fun p => (p.1, List.replicate n (0 : ℚ)))) tc axis)
    hentries (fun nm hnm => hasKey_ts1 hnm)
  have hseedkeys := seedInitialValues_hasKey hseed
  obtain ⟨tbl, htbl⟩ : ∃ tbl,
      mainLoop noise repl order
        ((axis.drop dbn.max_lag).zip (List.range' dbn.max_lag (n - dbn.max_lag)))
        seeded = .ok tbl :=
    mainLoop_ok_of _ _
      (fun nd hnd => (hseedkeys _).2
        (hasKey_ts1 (order_keys_of_facts hkey hord_mem nd hnd)))
      (fun nd hnd pl hpl => (hseedkeys _).2
        (hasKey_ts1 (order_parents_resolve hres hord_mem nd hnd pl hpl)))
  refine ⟨tbl, ?_⟩
  simp only [generateCore, hok, seedStage, if_neg hiv, if_pos hcond, hseed, htbl]
  rfl

theorem rangeAxis_length (n : ℕ) :
    (((List.range n).map (fun i => (i : ℚ)))).length = n := by
  rw [List.length_map]
  show ((List.range n).flatMap (fun a => [(a : ℚ)])).length = n
  rw [List.length_flatMap]
  have hc : (List.length ∘ fun a : ℕ => [(a : ℚ)]) = fun _ => 1 := rfl
  rw [hc, List.map_const', List.sum_replicate, List.length_range, smul_eq_mul, mul_one]

/-- C5 amended. For every call to `generate` with a non-empty
`initial_values` dict (well-formed, resolvable, acyclic network;
`max_lag ≤ n_steps`; the datetime collaborator honouring its length
contract; start/frequency passed consistently): (a) every NON-TEMPORAL
node missing from the dict causes the argument error naming the missing
node(s) before any sample is generated; (b) when all non-temporal nodes
are covered and the dict's keys all name nodes, a wrong-length entry
FOR A NON-TEMPORAL NODE causes the argument error naming the expected
and actual lengths; (c) when every non-temporal node has an entry of
length exactly `max_lag`, generation succeeds — temporal nodes need not
be supplied, their initial window being derived from the time axis.
The restriction of (b) to non-temporal entries is forced by the
counterexample: the temporal back-fill overwrites any caller-supplied
temporal entry BEFORE the length check runs, so a wrong-length temporal
entry is silently replaced and raises nothing. -/
theorem C5_initial_values_validation (dbn : DBN)
    (genDT : ℕ → String → String → Option String → List ℚ)
    (noise : String → ℕ → ℚ) (n_steps : ℕ) (repl : ℚ) (tc : String)
    (fmt st fr : Option String) (excl : Bool)
    (hwf : dbn.WF) (hres : parentsResolve dbn)
    (hacyc : ¬ HasCycle (zeroLagEdges dbn))
    (hml : dbn.max_lag ≤ n_steps)
    (hdt : ∀ k s f m, (genDT k s f m).length = k)
    (hst : (st = none ∧ fr = none) ∨ (∃ s f, st = some s ∧ fr = some f)) :
    (∀ iv0 nm nd, iv0 ≠ [] → (nm, nd) ∈ dbn.nodes → DNode.isTemporal nd = false →
      nm ∉ iv0.map Prod.fst →
      ∃ ms, Sampler.generate dbn genDT noise n_steps (some iv0) repl tc st fr fmt excl
          = .error (.missingInitialValues ms) ∧ nm ∈ ms) ∧
    (∀ iv0, iv0 ≠ [] →
      (∀ k ∈ iv0.map Prod.fst, k ∈ dbn.nodes.map Prod.fst) →
      (∀ nm nd, (nm, nd) ∈ dbn.nodes → DNode.isTemporal nd = false →
        nm ∈ iv0.map Prod.fst) →
      (∃ nm nd entry, (nm, nd) ∈ dbn.nodes ∧ DNode.isTemporal nd = false ∧
        dictGet iv0 nm = some entry ∧ entry.length ≠ dbn.max_lag) →
      ∃ nm a, Sampler.generate dbn genDT noise n_steps (some iv0) repl tc st fr fmt excl
          = .error (.initialValuesLength dbn.max_lag nm a) ∧ a ≠ dbn.max_lag) ∧
    (∀ iv0, iv0 ≠ [] →
      (∀ k ∈ iv0.map Prod.fst, k ∈ dbn.nodes.map Prod.fst) →
      (∀ nm nd, (nm, nd) ∈ dbn.nodes → DNode.isTemporal nd = false →
        ∃ entry, dictGet iv0 nm = some entry ∧ entry.length = dbn.max_lag) →
      ∃ tbl, Sampler.generate dbn genDT noise n_steps (some iv0) repl tc st fr fmt false
          = .ok tbl) := by
  obtain ⟨axis, haxlen, heq⟩ : ∃ axis, axis.length = n_steps ∧
      ∀ (iv : Option (List (String × List ℚ))) (excl' : Bool),
        Sampler.generate dbn genDT noise n_steps iv repl tc st fr fmt excl'
          = generateCore dbn noise n_steps iv repl tc excl' axis := by
    rcases hst with ⟨rfl, rfl⟩ | ⟨s, f, rfl, rfl⟩
    · exact ⟨_, rangeAxis_length n_steps, fun iv excl' => rfl⟩
    · exact ⟨_, hdt n_steps s f fmt, fun iv excl' => rfl⟩
  refine ⟨?_, ?_, ?_⟩
  · intro iv0 nm nd hiv hnode hntmp hmiss
    rw [heq]
    exact generateCore_iv_missing dbn noise n_steps repl tc excl axis
      hwf hres hacyc hiv hnode hntmp hmiss
  · intro iv0 hiv hsub hnt hbad
    rw [heq]
    exact generateCore_iv_badlen dbn noise n_steps repl tc excl axis
      hwf hres hacyc hml haxlen hiv hsub hnt hbad
  · intro iv0 hiv hsub hgood
    rw [heq]
    exact generateCore_iv_ok dbn noise n_steps repl tc axis
      hwf hres hacyc hml haxlen hiv hsub hgood

/-- C5 counterexample to the unrestricted length claim: `max_lag = 1`,
yet `generate` is given a temporal entry `T ↦ [5, 5, 5]` of length 3 and
succeeds — the back-fill overwrote the entry before the length check, so
no `initialValuesLength` error (nor any other) is raised, and `T`'s
column comes from its time feature, not from the supplied entry. -/
theorem C5_counterexample_temporal_wrong_length_accepted :
    c5dbn.max_lag = 1 ∧
    (∃ entry, dictGet [("A", [(1 : ℚ)]), ("T", [5, 5, 5])] "T" = some entry ∧
      entry.length ≠ c5dbn.max_lag) ∧
    Sampler.generate c5dbn c3axis (fun _ _ => 0) 2
        (some [("A", [1]), ("T", [5, 5, 5])]) 0 "Time" none none none false
      = .ok [("A", [1, 2]), ("T", [100, 101]), ("Time", [0, 1])] :=
  ⟨by decide, ⟨[5, 5, 5], rfl, by decide⟩, by decide⟩

/-- C5 witness: the missing-node half applied to the concrete two-node
network — leaving `Y` out of `initial_values` yields the argument error
naming `Y`. -/
theorem C5_witness :
    ∃ ms, Sampler.generate c3dbn c3axis (fun _ _ => 0) 4
        (some [("X", [(1 : ℚ), 1])]) 0 "Time" none none none false
      = .error (.missingInitialValues ms) ∧ "Y" ∈ ms :=
  (C5_initial_values_validation c3dbn c3axis (fun _ _ => 0) 4 0 "Time"
      none none none false (by constructor <;> decide) (by decide)
      (kahnAux_no_cycle _ (graphVerts c3dbn) ["Y", "X"]
        (fun e he => endpoints_mem_graphVerts c3dbn e he) rfl)
      (by decide) (fun k s f m => rangeAxis_length k) (Or.inl ⟨rfl, rfl⟩)).1
    [("X", [1, 1])] "Y" (DNode.node "Y" [] c3cpdY)
    (List.cons_ne_nil _ _) (List.mem_cons_self _ _) rfl (by decide)

/-! ### Claim C3 machinery -/

theorem dictGet_of_mem_nodup {κ α : Type} [DecidableEq κ] :
    ∀ {d : List (κ × α)}, (d.map Prod.fst).Nodup →
      ∀ {k : κ} {v : α}, (k, v) ∈ d → dictGet d k = some v := by
  intro d
  induction d with
  | nil =>
    intro _ k v h
    exact absurd h (List.not_mem_nil _)
  | cons p rest ih =>
    intro hnodup k v h
    rw [List.map_cons] at hnodup
    have hnotin := (List.nodup_cons.1 hnodup).1
    rcases List.mem_cons.1 h with h | h
    · rw [← h]
      simp [dictGet]
    · have hne : p.1 ≠ k := by
        intro hc
        apply hnotin
        rw [hc]
        exact List.mem_map.2 ⟨(k, v), h, rfl⟩
      simp only [dictGet, if_neg hne]
      exact ih (List.nodup_cons.1 hnodup).2 h

theorem seedStage_length {dbn : DBN} {iv : Option (List (String × List ℚ))}
    {axis : List ℚ} {ts1 T' : Table} {n : ℕ} (hml : dbn.max_lag ≤ n)
    (h : seedStage dbn iv axis ts1 = .ok T')
    (hcl : ∀ nm col, dictGet ts1 nm = some col → col.length = n) :
    ∀ nm col, dictGet T' nm = some col → col.length = n := by
  cases iv with
  | none =>
    rw [← Except.ok.inj h]
    exact hcl
  | some iv0 =>
    simp only [seedStage] at h
    by_cases hiv : iv0 = []
    · rw [if_pos hiv] at h
      rw [← Except.ok.inj h]
      exact hcl
    · rw [if_neg hiv] at h
      split at h
      · exact seedInitialValues_length hml h hcl
      · exact Except.noConfusion h

/-- Invariants of a SUCCESSFUL `get_topological_order` call, with no
acyclicity assumption (success itself certifies them). -/
theorem topo_ok_inv {dbn : DBN}
    (hnodup : (dbn.nodes.map Prod.fst).Nodup)
    (hkey : ∀ p ∈ dbn.nodes, DNode.name p.2 = p.1)
    {order : List DNode} (h : dbn.get_topological_order = .ok order) :
    NOrd (zeroLagEdges dbn) (order.map DNode.name) ∧
    (order.map DNode.name).Nodup ∧
    (∀ nm nd, dictGet dbn.nodes nm = some nd → nd ∈ order) ∧
    (∀ nd ∈ order, ∃ nm, dictGet dbn.nodes nm = some nd) := by
  unfold DBN.get_topological_order at h
  cases hk : kahnAux (zeroLagEdges dbn) (graphVerts dbn).length (graphVerts dbn) with
  | none =>
    rw [hk] at h
    exact Except.noConfusion h
  | some names =>
    rw [hk] at h
    have hperm : names.Perm (graphVerts dbn) := kahnAux_perm _ _ _ _ hk
    have hf2 := lookupNodes_forall₂ h
    have hname : order.map DNode.name = names := forall₂_map_name hkey hf2
    refine ⟨?_, ?_, ?_, ?_⟩
    · rw [hname]
      exact kahnAux_NOrd _ _ _ _ hk
    · rw [hname]
      exact hperm.symm.nodup (graphVerts_nodup dbn hnodup)
    · intro nm nd hget
      have hnm : nm ∈ names :=
        hperm.mem_iff.2 (names_subset_graphVerts dbn (mem_keys_of_dictGet hget))
      obtain ⟨nd', hnd', hget'⟩ := forall₂_mem_left hf2 nm hnm
      rw [hget] at hget'
      rw [Option.some.inj hget']
      exact hnd'
    · intro nd hnd
      obtain ⟨nm, _, hget⟩ := forall₂_mem_right hf2 nd hnd
      exact ⟨nm, hget⟩

/-- The generation loop of claim C3, isolated: under the Kahn-order
invariants, a successful pass over `zip(axis[start:], range(start, n))`
makes every non-temporal node's cell at each generated timestep `t`
equal its conditional distribution evaluated on the final table's
parent values (`t - lag` when `t - lag ≥ 0`, the replacement value
otherwise). -/
theorem core_loop_recurrence (dbn : DBN) {noise : String → ℕ → ℚ} {repl : ℚ}
    {n start : ℕ} {order : List DNode} {seeded tbl : Table} {axis : List ℚ}
    (hno : NOrd (zeroLagEdges dbn) (order.map DNode.name))
    (hnodupord : (order.map DNode.name).Nodup)
    (hedge : ∀ nd ∈ order, ∀ pl ∈ DNode.parents nd, pl.2 = 0 →
      (pl.1, DNode.name nd) ∈ zeroLagEdges dbn)
    (hlen : ∀ nm col, dictGet seeded nm = some col → col.length = n)
    (haxlen : axis.length = n)
    (hmlp : mainLoop noise repl order
      ((axis.drop start).zip (List.range' start (n - start))) seeded = .ok tbl) :
    ∀ nm ps cpd, DNode.node nm ps cpd ∈ order → ∀ t, start ≤ t → t < n →
      cell tbl nm t = cpd.evaluate (pureParentVals tbl repl t ps []) (noise nm t) := by
  intro nm ps cpd hnd t ht1 ht2
  have hsnd : ((axis.drop start).zip (List.range' start (n - start))).map Prod.snd
      = List.range' start (n - start) := by
    apply List.map_snd_zip
    rw [List.length_range', List.length_drop, haxlen]
  have hpairs_lt : ∀ pr ∈ (axis.drop start).zip (List.range' start (n - start)),
      pr.2 < n := by
    intro pr hpr
    have := (mem_range'_bounds (List.of_mem_zip hpr).2).2
    omega
  have hsort : List.Pairwise (fun a b : ℚ × ℕ => a.2 < b.2)
      ((axis.drop start).zip (List.range' start (n - start))) := by
    have hp := List.pairwise_lt_range' start (n - start)
    rw [← hsnd] at hp
    exact List.pairwise_map.1 hp
  have htmem : t ∈ List.range' start (n - start) := by
    rw [List.mem_range']
    exact ⟨t - start, by omega, by omega⟩
  rw [← hsnd] at htmem
  obtain ⟨pr, hpr, hpr2⟩ := List.mem_map.1 htmem
  have hmc := mainLoop_correct (zeroLagEdges dbn) hno hnodupord hedge
    _ seeded tbl hmlp hlen hpairs_lt hsort pr hpr (DNode.node nm ps cpd) hnd
  rw [hpr2] at hmc
  exact hmc

/-- Claim C3 at the `generateCore` level: on every successful run, every
non-temporal node's stored value at every generated timestep is its
conditional distribution applied to the lag-resolved parent mapping read
from the returned table. -/
theorem generateCore_recurrence {dbn : DBN} {noise : String → ℕ → ℚ} {n : ℕ}
    {iv : Option (List (String × List ℚ))} {repl : ℚ} {tc : String} {excl : Bool}
    {axis : List ℚ} {tbl : Table}
    (hnodup : (dbn.nodes.map Prod.fst).Nodup)
    (hkey : ∀ p ∈ dbn.nodes, DNode.name p.2 = p.1)
    (hml : dbn.max_lag ≤ n) (haxlen : axis.length = n)
    (hcore : generateCore dbn noise n iv repl tc excl axis = .ok tbl) :
    ∀ nm ps cpd, (nm, DNode.node nm ps cpd) ∈ dbn.nodes →
      ∀ t, startingTimestep dbn.max_lag iv ≤ t → t < n →
        cell tbl nm t = LinearGaussianCPD.evaluate cpd
          (pureParentVals tbl repl t ps []) (noise nm t) := by
  intro nm ps cpd hmem t ht1 ht2
  simp only [generateCore] at hcore
  split at hcore
  · exact Except.noConfusion hcore
  · rename_i order htopo
    obtain ⟨hno, hnodupord, hmem_ord, hord_mem⟩ := topo_ok_inv hnodup hkey htopo
    split at hcore
    · exact Except.noConfusion hcore
    · rename_i seeded hsd
      split at hcore
      · exact Except.noConfusion hcore
      · rename_i final hmlp
        have htbl : final = tbl := by
          split at hcore
          · exact Except.noConfusion hcore
          · exact Except.ok.inj hcore
        subst htbl
        have hlenseed : ∀ nm' col, dictGet seeded nm' = some col → col.length = n :=
          seedStage_length hml hsd (length_ts1 haxlen)
        have hedge := order_edges hord_mem
        have hnd : DNode.node nm ps cpd ∈ order :=
          hmem_ord nm _ (dictGet_of_mem_nodup hnodup hmem)
        cases iv with
        | none =>
          exact core_loop_recurrence dbn hno hnodupord hedge hlenseed haxlen hmlp
            nm ps cpd hnd t ht1 ht2
        | some iv0 =>
          exact core_loop_recurrence dbn hno hnodupord hedge hlenseed haxlen hmlp
            nm ps cpd hnd t ht1 ht2

/-- C3. On every successful call to `generate` (with the datetime
collaborator honouring its length contract and `max_lag ≤ n_steps`):
for every non-temporal node and every generated timestep `t` — from 0
when `initial_values` is `None`, from `max_lag` otherwise — the stored
value is the node's conditional distribution evaluated on the mapping
that assigns each `(parent_name, lag)` pair the parent's value at
timestep `t - lag` read from the returned table (already computed, since
cells are written once and never overwritten) when `t - lag ≥ 0`, and
the configured replacement value when `t - lag < 0`; the out-of-history
case substitutes instead of failing. -/
theorem C3_parent_value_resolution (dbn : DBN)
    (genDT : ℕ → String → String → Option String → List ℚ)
    (noise : String → ℕ → ℚ) (n_steps : ℕ)
    (iv : Option (List (String × List ℚ))) (repl : ℚ) (tc : String)
    (fmt st fr : Option String) (excl : Bool) (tbl : Table)
    (hwf : dbn.WF)
    (hml : dbn.max_lag ≤ n_steps)
    (hdt : ∀ k s f m, (genDT k s f m).length = k)
    (hgen : Sampler.generate dbn genDT noise n_steps iv repl tc st fr fmt excl
      = .ok tbl) :
    ∀ nm ps cpd, (nm, DNode.node nm ps cpd) ∈ dbn.nodes →
      ∀ t, startingTimestep dbn.max_lag iv ≤ t → t < n_steps →
        cell tbl nm t = LinearGaussianCPD.evaluate cpd
          (pureParentVals tbl repl t ps []) (noise nm t) := by
  obtain ⟨axis, haxlen, heq⟩ : ∃ axis, axis.length = n_steps ∧
      Sampler.generate dbn genDT noise n_steps iv repl tc st fr fmt excl
        = generateCore dbn noise n_steps iv repl tc excl axis := by
    cases st with
    | none =>
      cases fr with
      | none => exact ⟨_, rangeAxis_length n_steps, rfl⟩
      | some f => exact Except.noConfusion hgen
    | some s =>
      cases fr with
      | none => exact Except.noConfusion hgen
      | some f => exact ⟨_, hdt n_steps s f fmt, rfl⟩
  rw [heq] at hgen
  exact generateCore_recurrence hwf.1 hwf.2 hml haxlen hgen

/-- C3 witness: the spec's missing-history scenario. `X` has the lag-2
parent `Y`, generation runs from timestep 0 with no initial values, and
the recurrence holds at `t = 0` and `t = 1` (where the parent lookup is
out of history, so `pureParentVals` maps `("Y", 2)` to the replacement
value 0) as well as at `t = 2` (where it reads `Y` at timestep 0). -/
theorem C3_witness :
    cell c3wTbl "X" 0 = LinearGaussianCPD.evaluate c3cpdX
        (pureParentVals c3wTbl 0 0 [("Y", 2)] []) 0 ∧
    cell c3wTbl "X" 1 = LinearGaussianCPD.evaluate c3cpdX
        (pureParentVals c3wTbl 0 1 [("Y", 2)] []) 0 ∧
    cell c3wTbl "X" 2 = LinearGaussianCPD.evaluate c3cpdX
        (pureParentVals c3wTbl 0 2 [("Y", 2)] []) 0 :=
  ⟨C3_parent_value_resolution c3dbn c3axis (fun _ _ => 0) 4 none 0 "Time"
      none none none false c3wTbl (by constructor <;> decide) (by decide)
      (fun k s f m => rangeAxis_length k) (by decide)
      "X" [("Y", 2)] c3cpdX (List.mem_cons_of_mem _ (List.mem_cons_self _ _))
      0 (by decide) (by decide),
    C3_parent_value_resolution c3dbn c3axis (fun _ _ => 0) 4 none 0 "Time"
      none none none false c3wTbl (by constructor <;> decide) (by decide)
      (fun k s f m => rangeAxis_length k) (by decide)
      "X" [("Y", 2)] c3cpdX (List.mem_cons_of_mem _ (List.mem_cons_self _ _))
      1 (by decide) (by decide),
    C3_parent_value_resolution c3dbn c3axis (fun _ _ => 0) 4 none 0 "Time"
      none none none false c3wTbl (by constructor <;> decide) (by decide)
      (fun k s f m => rangeAxis_length k) (by decide)
      "X" [("Y", 2)] c3cpdX (List.mem_cons_of_mem _ (List.mem_cons_self _ _))
      2 (by decide) (by decide)⟩

/-! ### Claim C10: empty initial_values dict -/

/-- C10. For every structurally valid network with `max_lag ≥ 1` (and a
time column name distinct from every node name), calling `generate`
with `initial_values` equal to the EMPTY mapping performs no temporal
back-fill, no missing-node or length validation and no seeding — the
Python truthiness test `if initial_values:` skips that whole block — yet
the `initial_values is None` test is false, so generation starts at
timestep `max_lag`; consequently the call succeeds and the first
`max_lag` rows of every node column in the returned table remain at the
0.0 placeholder. -/
theorem C10_empty_initial_values (dbn : DBN)
    (genDT : ℕ → String → String → Option String → List ℚ)
    (noise : String → ℕ → ℚ) (n_steps : ℕ) (repl : ℚ) (tc : String)
    (fmt st fr : Option String)
    (hwf : dbn.WF) (hres : parentsResolve dbn)
    (hacyc : ¬ HasCycle (zeroLagEdges dbn))
    (hml1 : 1 ≤ dbn.max_lag)
    (htc : tc ∉ dbn.nodes.map Prod.fst)
    (hst : (st = none ∧ fr = none) ∨ (st.isSome ∧ fr.isSome)) :
    ∃ tbl, Sampler.generate dbn genDT noise n_steps (some []) repl tc st fr fmt false
        = .ok tbl ∧
      ∀ nm ∈ dbn.nodes.map Prod.fst, ∀ i, i < dbn.max_lag → i < n_steps →
        cell tbl nm i = 0 := by
  rcases hst with ⟨rfl, rfl⟩ | ⟨hs, hf⟩
  · obtain ⟨tbl, h1, h2⟩ :=
      generateCore_empty_iv dbn noise n_steps repl tc
        ((List.range n_steps).map (fun i => (i : ℚ))) hwf hres hacyc htc
    exact ⟨tbl, h1, fun nm hnm i hi _ => h2 nm hnm i hi⟩
  · obtain ⟨a, ha⟩ := Option.isSome_iff_exists.1 hs
    obtain ⟨b, hb⟩ := Option.isSome_iff_exists.1 hf
    subst ha
    subst hb
    obtain ⟨tbl, h1, h2⟩ :=
      generateCore_empty_iv dbn noise n_steps repl tc
        (genDT n_steps a b fmt) hwf hres hacyc htc
    exact ⟨tbl, h1, fun nm hnm i hi _ => h2 nm hnm i hi⟩

/-- C10 witness: the theorem applied to the concrete two-node network
with `initial_values = {}` (the empty dict), all hypotheses
discharged. -/
theorem C10_witness :
    ∃ tbl, Sampler.generate c10dbn c10axis (fun _ _ => 0) 3 (some []) 0 "Time"
        none none none false = .ok tbl ∧
      ∀ nm ∈ c10dbn.nodes.map Prod.fst, ∀ i, i < c10dbn.max_lag → i < 3 →
        cell tbl nm i = 0 :=
  C10_empty_initial_values c10dbn c10axis (fun _ _ => 0) 3 0 "Time" none none none
    (by constructor <;> decide) (by decide)
    (kahnAux_no_cycle _ (graphVerts c10dbn) ["A", "B"]
      (fun e he => endpoints_mem_graphVerts c10dbn e he) rfl)
    (by decide) (by decide) (Or.inl ⟨rfl, rfl⟩)

/-- C2 witness: the start/frequency theorem applied to a concrete
network — providing only `start_time` fails with the argument error,
and providing neither never yields a start/frequency error. -/
theorem C2_witness :
    Sampler.generate c10dbn c10axis (fun _ _ => 0) 2 none 0 "Time"
        (some "2024-01-01") none none false = .error .startWithoutFrequency ∧
    (Sampler.generate c10dbn c10axis (fun _ _ => 0) 2 none 0 "Time"
        none none none false ≠ .error .startWithoutFrequency ∧
      Sampler.generate c10dbn c10axis (fun _ _ => 0) 2 none 0 "Time"
        none none none false ≠ .error .frequencyWithoutStart) :=
  ⟨(C2_start_frequency_check c10dbn c10axis (fun _ _ => 0) 2 none 0 "Time" none false).1
      "2024-01-01",
    (C2_start_frequency_check c10dbn c10axis (fun _ _ => 0) 2 none 0 "Time" none false).2.2
      none none (Or.inl ⟨rfl, rfl⟩)⟩

/-! ### Claim C1: get_topological_order -/

/-- C1 amended. For every structurally well-formed network (distinct
node names, each stored under its own name) ALL OF WHOSE ZERO-LAG PARENT
NAMES RESOLVE TO NODES PRESENT IN THE NETWORK: if the zero-lag subgraph
is acyclic, `get_topological_order` returns a list containing every node
of the network exactly once in which every zero-lag parent appears
strictly before each of its zero-lag children; and (with no resolution
assumption) whenever the zero-lag subgraph contains a cycle it fails
with the cycle-detected error.  Edges with `lag >= 1` are excluded from
the sorted graph by construction and so impose no ordering constraint
and cannot cause the cycle failure.  The resolution hypothesis in the
first half is forced by the counterexample: a dangling zero-lag parent
name becomes a graph vertex, is topologically sorted, and then hits an
uncaught `KeyError` in `self.nodes[name]`, so the acyclic case does not
return a list for such networks. -/
theorem C1_topological_order (dbn : DBN) (hwf : dbn.WF) :
    ((∀ e ∈ zeroLagEdges dbn, e.1 ∈ dbn.nodes.map Prod.fst) →
      ¬ HasCycle (zeroLagEdges dbn) →
      ∃ l, dbn.get_topological_order = .ok l ∧
        (l.map DNode.name).Perm (dbn.nodes.map Prod.fst) ∧
        (∀ nm ∈ dbn.nodes.map Prod.fst, (l.map DNode.name).count nm = 1) ∧
        ∀ e ∈ zeroLagEdges dbn,
          (l.map DNode.name).indexOf e.1 < (l.map DNode.name).indexOf e.2) ∧
    (HasCycle (zeroLagEdges dbn) →
      dbn.get_topological_order = .error .cycleDetected) := by
  obtain ⟨hnodup, hkey⟩ := hwf
  constructor
  · intro hres hacyc
    obtain ⟨order, hok, hperm, _, _, hsorted, _, _⟩ :=
      get_topological_order_ok_facts hnodup hkey hres hacyc
    refine ⟨order, hok, hperm, ?_, hsorted⟩
    intro nm hnm
    rw [hperm.count_eq nm]
    exact List.count_eq_one_of_mem hnodup hnm
  · exact get_topological_order_cycle dbn

/-- C1 counterexample. The zero-lag subgraph of `c1dangling` (one edge
`A → B`, `A` dangling) is acyclic, yet `get_topological_order` does not
return a list: the sorted vertex `A` is not a key of the node dict, and
the comprehension `[self.nodes[name] for name in ordered_names]` raises
an uncaught `KeyError`.  This refutes the claim's universally quantified
acyclic case. -/
theorem C1_counterexample_dangling_parent :
    ¬ HasCycle (zeroLagEdges c1dangling) ∧
    c1dangling.get_topological_order = .error (.keyErr "A") ∧
    ∀ l, c1dangling.get_topological_order ≠ .ok l := by
  refine ⟨?_, rfl, ?_⟩
  · exact kahnAux_no_cycle _ (graphVerts c1dangling) ["A", "B"]
      (fun e he => endpoints_mem_graphVerts c1dangling e he) rfl
  · intro l h
    rw [show c1dangling.get_topological_order = .error (.keyErr "A") from rfl] at h
    exact Except.noConfusion h

/-- C1 witness: the amended theorem applied to the concrete two-node
network `c1w`, all hypotheses discharged. -/
theorem C1_witness :
    ∃ l, c1w.get_topological_order = .ok l ∧
      (l.map DNode.name).Perm (c1w.nodes.map Prod.fst) ∧
      (∀ nm ∈ c1w.nodes.map Prod.fst, (l.map DNode.name).count nm = 1) ∧
      ∀ e ∈ zeroLagEdges c1w,
        (l.map DNode.name).indexOf e.1 < (l.map DNode.name).indexOf e.2 :=
  (C1_topological_order c1w (by constructor <;> decide)).1 (by decide)
    (kahnAux_no_cycle _ (graphVerts c1w) ["D", "C"]
      (fun e he => endpoints_mem_graphVerts c1w e he) rfl)

/-! ### Claim C8: exclude_temporal_nodes_from_output -/

/-- C8. The claim says that with `exclude_temporal_nodes_from_output`
set, the returned table drops the temporal columns while keeping the
others; but the source line is `timeseries_dataset.loc[:
[*nodes, time_col]]` — the comma is missing, so the column list is the
stop bound of a row slice, which pandas rejects with a `TypeError`
(`cannot do slice indexing on RangeIndex with these indexers ... of type
list`).  On a concrete two-node network the call with the flag set
raises instead of returning a table, while the identical call without
the flag returns the full table — in which the temporal node `T` did
participate and its downstream node `A` saw its values (`A`'s column
equals `T`'s). -/
theorem C8_exclude_flag_raises_type_error :
    Sampler.generate c8dbn c8axis (fun _ _ => 0) 2 none 0 "Time" none none none true
      = .error .locSliceTypeError ∧
    Sampler.generate c8dbn c8axis (fun _ _ => 0) 2 none 0 "Time" none none none false
      = .ok [("T", [100, 101]), ("A", [100, 101]), ("Time", [0, 1])] := by
  constructor <;> decide

end

end DBNSim
